import Mathlib

/-!
Verification of the stampwise content-aware stamp placement engine
(`PDFProcessor.find_whitest_space` in `server.py`).

Modelling conventions (shallow embedding of the Python/numpy/OpenCV code):

* A raster / mask is an `H × W` array of unsigned 8-bit values.  We model an
  array as a total function `ℤ → ℤ → ℕ`; every operation that *produces* an
  `H × W` array yields `0` outside the page rectangle `[0,H) × [0,W)`
  (`onPage`), matching the fact that an `H × W` numpy array simply has no
  values outside its domain.  The input raster is an arbitrary total
  function; the code only ever reads it inside the page (all OpenCV border
  modes used here never read out of range).
* OpenCV structuring elements created by `cv2.getStructuringElement
  (cv2.MORPH_RECT, (w, h))` are full `w × h` rectangles, hence fully
  determined by their size; we represent a kernel by its `(w, h)` pair.
  The `lru_cache(maxsize=32)` on `_get_text_detection_kernel` is modelled
  by an explicit association list threaded through the pipeline.
* `cv2.erode` / `cv2.dilate` use the default anchor (the kernel centre)
  and the default border handling, under which out-of-range positions do
  not influence the minimum / maximum.
* `cv2.findContours`, `cv2.contourArea`, `cv2.boundingRect` and
  `cv2.fillPoly` concern polygon geometry that the placement logic only
  consumes through a contour's area, bounding box and filled region; they
  are modelled by an abstract `ContourBackend` supplying, for a binary
  image, the list of detected contours (each with area, bounding box and
  filled-region predicate).  `cv2.boundingRect` always returns an in-range
  box with non-negative corner, so numpy's `image[y:y+h, x:x+w]` slice is
  modelled as the rectangle clipped to the page.
* Floating-point ratio tests (`np.mean(roi)/255.0 > 0.95`,
  `np.sum(roi)/(s*s) <= 0.10`, `np.std(roi) > 40`, aspect ratios) are
  modelled in exact rational arithmetic, as in the specification's own
  real-arithmetic reading; the integral quantities (coordinates, sizes)
  the function returns are exact in IEEE float64.
-/

namespace Stampwise

/-- A grayscale image or mask: value at (row, column). -/
abbrev Img : Type := ℤ → ℤ → ℕ

/-- The position (y, x) lies inside an `H × W` page. -/
def inB (W H : ℕ) (y x : ℤ) : Prop :=
  0 ≤ y ∧ y < (H : ℤ) ∧ 0 ≤ x ∧ x < (W : ℤ)

instance (W H : ℕ) (y x : ℤ) : Decidable (inB W H y x) :=
  inferInstanceAs (Decidable (_ ∧ _ ∧ _ ∧ _))

/-- An `H × W` array produced by an operation: defined by `f` on the page,
`0` outside of it. -/
def onPage (W H : ℕ) (f : ℤ → ℤ → ℕ) : Img := fun y x =>
  if inB W H y x then f y x else 0

/-- `np.zeros((height, width), dtype=np.uint8)`. -/
def zeroImg : Img := fun _ _ => 0

/-- `cv2.threshold(m, t, 255, cv2.THRESH_BINARY)`. -/
def threshBin (W H t : ℕ) (m : Img) : Img :=
  onPage W H fun y x => if t < m y x then 255 else 0

/-- `cv2.threshold(m, t, 255, cv2.THRESH_BINARY_INV)`. -/
def threshBinInv (W H t : ℕ) (m : Img) : Img :=
  onPage W H fun y x => if t < m y x then 0 else 255

/-- `255 - m` on uint8 images whose values do not exceed 255. -/
def invert255 (W H : ℕ) (m : Img) : Img :=
  onPage W H fun y x => 255 - m y x

/-- `cv2.bitwise_or(a, b)`. -/
def bOr (W H : ℕ) (a b : Img) : Img :=
  onPage W H fun y x => Nat.lor (a y x) (b y x)

/-- Offsets covered by a `kw × kh` rectangular kernel (row, column). -/
def winIdx (kw kh : ℕ) : Finset (ℕ × ℕ) :=
  Finset.range kh ×ˢ Finset.range kw

/-- `cv2.erode` with a full `kw × kh` rectangle, centre anchor; border
positions do not affect the minimum. -/
def erodeM (W H kw kh : ℕ) (m : Img) : Img :=
  onPage W H fun y x =>
    (winIdx kw kh).fold min 255 fun p =>
      if inB W H (y + (p.1 : ℤ) - ((kh / 2 : ℕ) : ℤ)) (x + (p.2 : ℤ) - ((kw / 2 : ℕ) : ℤ)) then
        m (y + (p.1 : ℤ) - ((kh / 2 : ℕ) : ℤ)) (x + (p.2 : ℤ) - ((kw / 2 : ℕ) : ℤ))
      else 255

/-- `cv2.dilate` with a full `kw × kh` rectangle, centre anchor. -/
def dilateM (W H kw kh : ℕ) (m : Img) : Img :=
  onPage W H fun y x =>
    (winIdx kw kh).fold max 0 fun p =>
      if inB W H (y + (p.1 : ℤ) - ((kh / 2 : ℕ) : ℤ)) (x + (p.2 : ℤ) - ((kw / 2 : ℕ) : ℤ)) then
        m (y + (p.1 : ℤ) - ((kh / 2 : ℕ) : ℤ)) (x + (p.2 : ℤ) - ((kw / 2 : ℕ) : ℤ))
      else 0

/-- `cv2.morphologyEx(m, cv2.MORPH_OPEN, k)`: erosion then dilation. -/
def openM (W H kw kh : ℕ) (m : Img) : Img :=
  dilateM W H kw kh (erodeM W H kw kh m)

/-- `cv2.morphologyEx(m, cv2.MORPH_CLOSE, k)`: dilation then erosion. -/
def closeM (W H kw kh : ℕ) (m : Img) : Img :=
  erodeM W H kw kh (dilateM W H kw kh m)

/-- `cv2.BORDER_REFLECT_101` index reflection for an axis of length `n`. -/
def reflect (n : ℕ) (i : ℤ) : ℤ :=
  if i < 0 then -i else if (n : ℤ) ≤ i then 2 * n - 2 - i else i

/-- Row of the separable 5-point Gaussian kernel used by
`cv2.GaussianBlur(img, (5, 5), 0)` (fixed-point weights summing to 16). -/
def gw : ℕ → ℕ
  | 0 => 1
  | 1 => 4
  | 2 => 6
  | 3 => 4
  | 4 => 1
  | _ => 0

/-- `cv2.GaussianBlur(img, (5, 5), 0)` on uint8 data: normalized 5×5
binomial filter with rounding, reflected borders. -/
def gauss5 (W H : ℕ) (m : Img) : Img :=
  onPage W H fun y x =>
    ((∑ p ∈ winIdx 5 5,
        gw p.1 * gw p.2 * m (reflect H (y + (p.1 : ℤ) - 2)) (reflect W (x + (p.2 : ℤ) - 2))) + 128) / 256

/-- `np.abs(cv2.Laplacian(m, cv2.CV_64F)).astype(np.uint8)`: the 4-point
Laplacian (integer-valued on integer input), absolute value, then the
uint8 cast which reduces modulo 256. -/
def lapAbsU8 (W H : ℕ) (m : Img) : Img :=
  onPage W H fun y x =>
    (((m (reflect H (y - 1)) x : ℤ) + m (reflect H (y + 1)) x
      + m y (reflect W (x - 1)) + m y (reflect W (x + 1))) - 4 * (m y x : ℤ)).natAbs % 256

/-- Data the placement code extracts from one `cv2.findContours` contour:
its `cv2.contourArea`, its `cv2.boundingRect` `(x, y, w, h)`, and the
region filled by `cv2.fillPoly`. -/
structure Contour where
  area : ℚ
  rx : ℤ
  ry : ℤ
  rw : ℕ
  rh : ℕ
  region : ℤ → ℤ → Bool

/-- Abstract contour extraction: `cv2.findContours` with
`cv2.RETR_EXTERNAL` resp. `cv2.RETR_TREE` on a binary `H × W` image. -/
structure ContourBackend where
  external : (W H : ℕ) → Img → List Contour
  tree : (W H : ℕ) → Img → List Contour

/-- `cv2.fillPoly` of one contour into a fresh zero `H × W` mask. -/
def fillC (W H : ℕ) (c : Contour) : Img :=
  onPage W H fun y x => if c.region y x then 255 else 0

/-- Number of pixels of the rectangle `[ry, ry+rh) × [rx, rx+rw)` that lie
on the page (the size of the numpy slice `image[ry:ry+rh, rx:rx+rw]` for
the in-range boxes `cv2.boundingRect` returns). -/
def rectCnt (W H : ℕ) (ry rx : ℤ) (rh rw : ℕ) : ℕ :=
  ∑ i ∈ Finset.range rh, ∑ j ∈ Finset.range rw,
    if inB W H (ry + (i : ℤ)) (rx + (j : ℤ)) then 1 else 0

/-- Sum of the raster over the on-page part of a bounding box. -/
def rectSum (W H : ℕ) (m : Img) (ry rx : ℤ) (rh rw : ℕ) : ℕ :=
  ∑ i ∈ Finset.range rh, ∑ j ∈ Finset.range rw,
    if inB W H (ry + (i : ℤ)) (rx + (j : ℤ)) then m (ry + (i : ℤ)) (rx + (j : ℤ)) else 0

/-- Sum of squared raster values over the on-page part of a bounding box. -/
def rectSumSq (W H : ℕ) (m : Img) (ry rx : ℤ) (rh rw : ℕ) : ℕ :=
  ∑ i ∈ Finset.range rh, ∑ j ∈ Finset.range rw,
    if inB W H (ry + (i : ℤ)) (rx + (j : ℤ)) then m (ry + (i : ℤ)) (rx + (j : ℤ)) * m (ry + (i : ℤ)) (rx + (j : ℤ)) else 0

/-- `np.std(roi) > 40`, expressed exactly: `n·Σv² > (Σv)² + 1600·n²`. -/
def stdGT40 (W H : ℕ) (m : Img) (ry rx : ℤ) (rh rw : ℕ) : Prop :=
  rectSum W H m ry rx rh rw * rectSum W H m ry rx rh rw
    + 1600 * rectCnt W H ry rx rh rw * rectCnt W H ry rx rh rw
    < rectCnt W H ry rx rh rw * rectSumSq W H m ry rx rh rw

instance (W H : ℕ) (m : Img) (ry rx : ℤ) (rh rw : ℕ) : Decidable (stdGT40 W H m ry rx rh rw) :=
  inferInstanceAs (Decidable (_ < _))

/-- State of the `lru_cache(maxsize=32)` on `_get_text_detection_kernel`:
association list from requested size to the cached structuring element
(itself represented by its size), most recently used first. -/
abbrev KCache : Type := List ((ℕ × ℕ) × (ℕ × ℕ))

/-- `_get_text_detection_kernel(size)` through the lru cache: on a hit the
cached kernel is returned and refreshed, on a miss
`cv2.getStructuringElement(cv2.MORPH_RECT, size)` (≡ `size`) is created,
stored and the cache trimmed to 32 entries. -/
def get_text_detection_kernel (kc : KCache) (sz : ℕ × ℕ) : (ℕ × ℕ) × KCache :=
  match kc.find? fun p => decide (p.1 = sz) with
  | some p => (p.2, ((sz, p.2) :: kc.filter fun q => decide (q.1 ≠ sz)).take 32)
  | none => (sz, ((sz, sz) :: kc).take 32)

/-- A cache state reachable through `_get_text_detection_kernel` alone:
every entry stores the structuring element of its own key. -/
def WFK (kc : KCache) : Prop := ∀ p ∈ kc, p.2 = p.1

instance (kc : KCache) : Decidable (WFK kc) :=
  inferInstanceAs (Decidable (∀ p ∈ kc, _ = _))

/-- `min_margin = 5`, the safety margin fixed inside `find_whitest_space`. -/
def min_margin : ℕ := 5

/-- Configuration of the processor actually read by the search
(`self.stamp_size_max`, `self.stamp_size_min`). -/
structure Cfg where
  stamp_size_max : ℕ
  stamp_size_min : ℕ
deriving DecidableEq

/-- The record `{x, y, size, stamp_size}` returned by the engine (the
Python code wraps these integers in `float(...)`; they are exact in
float64). `size` is the zone side, `stamp_size` the effective stamp side. -/
structure Placement where
  x : ℕ
  y : ℕ
  size : ℕ
  stamp_size : ℕ
deriving DecidableEq

/-- `smin_zone`: the smallest zone side, `stamp_size_min + 2*min_margin`. -/
def minZone (cfg : Cfg) : ℕ := cfg.stamp_size_min + 2 * min_margin

/-- `np.sum(m[y:y+s, x:x+s])`. -/
def roiSum (m : Img) (y x s : ℕ) : ℕ :=
  ∑ i ∈ Finset.range s, ∑ j ∈ Finset.range s, m ((y : ℤ) + (i : ℤ)) ((x : ℤ) + (j : ℤ))

/-- `np.mean(white[y:y+s, x:x+s]) / 255.0` as an exact rational. -/
def wr (wt : Img) (y x s : ℕ) : ℚ :=
  (roiSum wt y x s : ℚ) / (255 * (s : ℚ) * (s : ℚ))

/-- `np.sum(forbidden[y:y+s, x:x+s]) / (s*s)` as an exact rational (note:
the mask values are 0/255, so this "ratio" is 255 times the pixel
fraction). -/
def fr (fb : Img) (y x s : ℕ) : ℚ :=
  (roiSum fb y x s : ℚ) / ((s : ℚ) * (s : ℚ))

/-- The adaptive whiteness threshold of the primary scan: `0.95` for zone
sides `s ≥ stamp_size_max + 2*min_margin - 20`, else `0.98`. -/
def thetaOf (cfg : Cfg) (s : ℕ) : ℚ :=
  if cfg.stamp_size_max + 2 * min_margin - 20 ≤ s then 19 / 20 else 49 / 50

/-- The primary scan's cleanness test for candidate `(x, y, s)`:
`np.sum(forbidden roi) == 0` and `white_ratio > threshold`. -/
def cleanPrim (fb wt : Img) (cfg : Cfg) (s y x : ℕ) : Prop :=
  roiSum fb y x s = 0 ∧ thetaOf cfg s < wr wt y x s

instance (fb wt : Img) (cfg : Cfg) (s y x : ℕ) : Decidable (cleanPrim fb wt cfg s y x) :=
  inferInstanceAs (Decidable (_ ∧ _))

/-- Python `range(a, b, step)` for a positive step. -/
def pyRange2 (a b step : ℕ) : List ℕ :=
  (List.range ((b - a + step - 1) / step)).map fun i => a + i * step

/-- Python `range(0, n, step)`. -/
def pyRange (n step : ℕ) : List ℕ := pyRange2 0 n step

/-- Python `range(a, b - 1, -step)` for `a ≥ b` (empty when `a < b`). -/
def pyRangeDown (a b step : ℕ) : List ℕ :=
  if a < b then [] else (List.range ((a - b) / step + 1)).map fun i => a - i * step

/-- The `if sizes[-1] != min_zone_size: sizes.append(min_zone_size)` step
shared by both size enumerations.  (On an empty list the source would
raise an IndexError instead; that needs `stamp_size_min >
max(stamp_size_max, 400)` and cannot happen for a valid configuration.) -/
def appendIfMissed (l : List ℕ) (nz : ℕ) : List ℕ :=
  if l.getLast? = some nz then l else l ++ [nz]

/-- `search_sizes_to_try`: zone sides from `max(stamp_size_max +
2*min_margin, 410)` down to `smin_zone` in steps of 5, with `smin_zone`
appended when the stride misses it. -/
def search_sizes_to_try (cfg : Cfg) : List ℕ :=
  appendIfMissed (pyRangeDown (max (cfg.stamp_size_max + 2 * min_margin) 410) (minZone cfg) 5)
    (minZone cfg)

/-- `fallback_sizes`: zone sides from `stamp_size_max + 2*min_margin` down
to `smin_zone` in steps of 50, with `smin_zone` appended if missed. -/
def fallback_sizes (cfg : Cfg) : List ℕ :=
  appendIfMissed (pyRangeDown (cfg.stamp_size_max + 2 * min_margin) (minZone cfg) 50)
    (minZone cfg)

/-- The adaptive scan step for zone side `s`. -/
def stepFor (cfg : Cfg) (s : ℕ) : ℕ :=
  if cfg.stamp_size_max + 2 * min_margin - 20 ≤ s then max 5 (s / 30)
  else max 10 (s / 20)

/-- Mutable state of the primary scan: `best_position` and
`best_stamp_size`. -/
structure PState where
  best : Option Placement
  bestStamp : ℕ
deriving DecidableEq

/-- Processing of one primary-scan candidate `(x, y)` at zone side `s`. -/
def stepCand (fb wt : Img) (cfg : Cfg) (s y x : ℕ) (st : PState) : PState :=
  if cleanPrim fb wt cfg s y x then
    let avail := min (s - 2 * min_margin) cfg.stamp_size_max
    if cfg.stamp_size_min ≤ avail then
      if cfg.stamp_size_max ≤ avail then ⟨some ⟨x, y, s, avail⟩, avail⟩
      else if st.bestStamp < avail then ⟨some ⟨x, y, s, avail⟩, avail⟩
      else st
    else st
  else st

/-- The inner `for x in range(0, search_width, step)` loop, which breaks as
soon as `best_stamp_size >= stamp_size_max`. -/
def loopX (fb wt : Img) (cfg : Cfg) (s y : ℕ) : List ℕ → PState → PState
  | [], st => st
  | x :: xs, st =>
    let st1 := stepCand fb wt cfg s y x st
    if cfg.stamp_size_max ≤ st1.bestStamp then st1 else loopX fb wt cfg s y xs st1

/-- The `for y in range(0, search_height, step)` loop. -/
def loopY (fb wt : Img) (W : ℕ) (cfg : Cfg) (s : ℕ) : List ℕ → PState → PState
  | [], st => st
  | y :: ys, st =>
    let st1 := loopX fb wt cfg s y (pyRange (W - s) (stepFor cfg s)) st
    if cfg.stamp_size_max ≤ st1.bestStamp then st1 else loopY fb wt W cfg s ys st1

/-- The outer `for square_size in search_sizes_to_try` loop of the primary
scan, skipping sizes that do not fit the page. -/
def loopS (fb wt : Img) (W H : ℕ) (cfg : Cfg) : List ℕ → PState → PState
  | [], st => st
  | s :: ss, st =>
    if cfg.stamp_size_max ≤ st.bestStamp then st
    else if W ≤ s ∨ H ≤ s then loopS fb wt W H cfg ss st
    else loopS fb wt W H cfg ss (loopY fb wt W cfg s (pyRange (H - s) (stepFor cfg s)) st)

/-- Final state of the primary multi-scale scan. -/
def primState (fb wt : Img) (W H : ℕ) (cfg : Cfg) : PState :=
  loopS fb wt W H cfg (search_sizes_to_try cfg) ⟨none, 0⟩

/-- State of the local refinement: `best_refined` and
`best_refined_stamp_size`. -/
structure RState where
  best : Option Placement
  bestStamp : ℕ

/-- One candidate `(y, x)` of the fine rescan around the best position. -/
def refStep (fb wt : Img) (cfg : Cfg) (fss : ℕ) (st : RState) (c : ℕ × ℕ) : RState :=
  if roiSum fb c.1 c.2 fss = 0 ∧ (49 : ℚ) / 50 < wr wt c.1 c.2 fss then
    let avail := min (fss - 2 * min_margin) cfg.stamp_size_max
    if cfg.stamp_size_min ≤ avail then
      if st.bestStamp < avail then ⟨some ⟨c.2, c.1, fss, avail⟩, avail⟩ else st
    else st
  else st

/-- Local refinement around the primary result `p` (radius 5, step 2, at
the found zone size only), keeping the refined candidate only when it
strictly increases the effective stamp size. -/
def refineReturn (fb wt : Img) (W H : ℕ) (cfg : Cfg) (p : Placement) : Placement :=
  let fss := p.size
  let sw := W - fss
  let sh := H - fss
  if 0 < sw ∧ 0 < sh then
    let cands := (pyRange2 (p.y - 5) (min sh (p.y + 5 + 1)) 2).flatMap fun y =>
      (pyRange2 (p.x - 5) (min sw (p.x + 5 + 1)) 2).map fun x => (y, x)
    let r := cands.foldl (refStep fb wt cfg fss) ⟨none, p.stamp_size⟩
    match r.best with
    | some q => if p.stamp_size < r.bestStamp then q else p
    | none => p
  else p

/-- Mutable state of the corner fallback tiers. -/
structure TState where
  best : Option Placement
  bestStamp : ℕ
  bestWhite : ℚ

/-- `corner_positions_base` of the first fallback tier. -/
def corner_positions_base (W H : ℕ) : List (ℤ × ℤ) :=
  [((W : ℤ) - 20, 20), (20, 20), ((W : ℤ) - 20, (H : ℤ) - 20), (20, (H : ℤ) - 20),
   ((W : ℤ) - 50, 50), (50, 50), (((W / 2 : ℕ) : ℤ), 20)]

/-- One corner candidate of the first fallback tier. -/
def t1Cand (fb wt : Img) (W H : ℕ) (cfg : Cfg) (s : ℕ) (st : TState) (b : ℤ × ℤ) : TState :=
  let cx := b.1 - (s : ℤ)
  let cy := b.2
  if 0 ≤ cx ∧ 0 ≤ cy ∧ cx + (s : ℤ) ≤ (W : ℤ) ∧ cy + (s : ℤ) ≤ (H : ℤ) then
    let xn := cx.toNat
    let yn := cy.toNat
    let frv := fr fb yn xn s
    let wrv := wr wt yn xn s
    if frv = 0 ∧ (19 : ℚ) / 20 < wrv then
      let avail := min (s - 2 * min_margin) cfg.stamp_size_max
      if cfg.stamp_size_min ≤ avail then
        if cfg.stamp_size_max ≤ avail then ⟨some ⟨xn, yn, s, avail⟩, avail, wrv⟩
        else if st.bestStamp < avail ∨ (avail = st.bestStamp ∧ st.bestWhite < wrv) then
          ⟨some ⟨xn, yn, s, avail⟩, avail, wrv⟩
        else st
      else st
    else st
  else st

/-- The corner loop of tier 1, which breaks once a maximal stamp is taken. -/
def t1Corners (fb wt : Img) (W H : ℕ) (cfg : Cfg) (s : ℕ) : List (ℤ × ℤ) → TState → TState
  | [], st => st
  | b :: bs, st =>
    let st1 := t1Cand fb wt W H cfg s st b
    if st1.best.isSome ∧ cfg.stamp_size_max ≤ st1.bestStamp then st1
    else t1Corners fb wt W H cfg s bs st1

/-- The size loop of tier 1 over `fallback_sizes`. -/
def t1Sizes (fb wt : Img) (W H : ℕ) (cfg : Cfg) : List ℕ → TState → TState
  | [], st => st
  | s :: ss, st =>
    if st.best.isSome ∧ cfg.stamp_size_max ≤ st.bestStamp then st
    else t1Sizes fb wt W H cfg ss (t1Corners fb wt W H cfg s (corner_positions_base W H) st)

/-- `fallback_positions_base` of the second fallback tier. -/
def fallback_positions_base (W H : ℕ) : List (ℤ × ℤ) :=
  [((W : ℤ) - 50, 50), (50, 50), ((W : ℤ) - 50, (H : ℤ) - 50), (50, (H : ℤ) - 50),
   (((W / 2 : ℕ) : ℤ), 50), (((W / 2 : ℕ) : ℤ), (H : ℤ) - 50)]

/-- One candidate of the second fallback tier (strict: zero forbidden sum,
whiteness above 0.95). -/
def t2Cand (fb wt : Img) (W H : ℕ) (cfg : Cfg) (s : ℕ) (st : TState) (b : ℤ × ℤ) : TState :=
  let cx := b.1 - (s : ℤ)
  let cy := b.2
  if 0 ≤ cx ∧ 0 ≤ cy ∧ cx + (s : ℤ) ≤ (W : ℤ) ∧ cy + (s : ℤ) ≤ (H : ℤ) then
    let xn := cx.toNat
    let yn := cy.toNat
    if roiSum fb yn xn s = 0 then
      let wrv := wr wt yn xn s
      if (19 : ℚ) / 20 < wrv then
        let avail := min (s - 2 * min_margin) cfg.stamp_size_max
        if cfg.stamp_size_min ≤ avail then
          if st.bestStamp < avail ∨ (avail = st.bestStamp ∧ st.bestWhite < wrv) then
            ⟨some ⟨xn, yn, s, avail⟩, avail, wrv⟩
          else st
        else st
      else st
    else st
  else st

/-- The size loop of tier 2, which stops once any acceptable zone exists. -/
def t2Sizes (fb wt : Img) (W H : ℕ) (cfg : Cfg) : List ℕ → TState → TState
  | [], st => st
  | s :: ss, st =>
    if st.best.isSome ∧ cfg.stamp_size_min ≤ st.bestStamp then st
    else t2Sizes fb wt W H cfg ss ((fallback_positions_base W H).foldl (t2Cand fb wt W H cfg s) st)

/-- `emergency_positions_base` of the emergency tiers. -/
def emergency_positions_base (W H : ℕ) : List (ℤ × ℤ) :=
  [((W : ℤ) - 20, (H : ℤ) - 20), (20, (H : ℤ) - 20), ((W : ℤ) - 20, 20), (20, 20)]

/-- One candidate of the strict emergency tier (zero forbidden ratio). -/
def t3aCand (fb wt : Img) (W H : ℕ) (cfg : Cfg) (s : ℕ) (st : TState) (b : ℤ × ℤ) : TState :=
  let cx := b.1 - (s : ℤ)
  let cy := b.2
  if 0 ≤ cx ∧ 0 ≤ cy ∧ cx + (s : ℤ) ≤ (W : ℤ) ∧ cy + (s : ℤ) ≤ (H : ℤ) then
    let xn := cx.toNat
    let yn := cy.toNat
    if fr fb yn xn s = 0 then
      let wrv := wr wt yn xn s
      if (19 : ℚ) / 20 < wrv then
        let avail := min (s - 2 * min_margin) cfg.stamp_size_max
        if cfg.stamp_size_min ≤ avail then
          if st.bestStamp < avail ∨ (avail = st.bestStamp ∧ st.bestWhite < wrv) then
            ⟨some ⟨xn, yn, s, avail⟩, avail, wrv⟩
          else st
        else st
      else st
    else st
  else st

/-- Final state of the strict emergency tier (no early exit in the
source's loops). -/
def t3aState (fb wt : Img) (W H : ℕ) (cfg : Cfg) : TState :=
  (search_sizes_to_try cfg).foldl
    (fun st s => (emergency_positions_base W H).foldl (t3aCand fb wt W H cfg s) st)
    ⟨none, 0, 0⟩

/-- Mutable state of the overlap-tolerant emergency tier. -/
structure EState where
  best : Option Placement
  bestStamp : ℕ
  bestWhite : ℚ
  bestOverlap : ℚ

/-- One candidate of the overlap-tolerant emergency tier: forbidden ratio
at most 0.10, whiteness above 0.90; selection by (stamp desc, overlap asc,
whiteness desc). -/
def t3bCand (fb wt : Img) (W H : ℕ) (cfg : Cfg) (s : ℕ) (st : EState) (b : ℤ × ℤ) : EState :=
  let cx := b.1 - (s : ℤ)
  let cy := b.2
  if 0 ≤ cx ∧ 0 ≤ cy ∧ cx + (s : ℤ) ≤ (W : ℤ) ∧ cy + (s : ℤ) ≤ (H : ℤ) then
    let xn := cx.toNat
    let yn := cy.toNat
    let frv := fr fb yn xn s
    if frv ≤ 1 / 10 then
      let wrv := wr wt yn xn s
      if (9 : ℚ) / 10 < wrv then
        let avail := min (s - 2 * min_margin) cfg.stamp_size_max
        if cfg.stamp_size_min ≤ avail then
          if st.bestStamp < avail
              ∨ (avail = st.bestStamp ∧ (frv < st.bestOverlap
                  ∨ (frv = st.bestOverlap ∧ st.bestWhite < wrv))) then
            ⟨some ⟨xn, yn, s, avail⟩, avail, wrv, frv⟩
          else st
        else st
      else st
    else st
  else st

/-- Final state of the overlap-tolerant emergency tier. -/
def t3bState (fb wt : Img) (W H : ℕ) (cfg : Cfg) : EState :=
  (search_sizes_to_try cfg).foldl
    (fun st s => (emergency_positions_base W H).foldl (t3bCand fb wt W H cfg s) st)
    ⟨none, 0, 0, 1⟩

/-- The forced last-resort placement: top-right corner at the minimal zone
size, inset by 20 px when possible and clamped into the page otherwise. -/
def forcedPlacement (W H : ℕ) (cfg : Cfg) : Placement :=
  let fss := minZone cfg
  let fx0 := W - fss - 20
  let fx := if W < fx0 + fss then W - fss else fx0
  let fy := if H < 20 + fss then H - fss else 20
  ⟨fx, fy, fss, cfg.stamp_size_min⟩

/-- The search part of `find_whitest_space` (everything after the masks
are built): primary scan with local refinement, then the fallback tiers in
order, then the forced corner. -/
def searchCore (fb wt : Img) (W H : ℕ) (cfg : Cfg) : Placement :=
  match (primState fb wt W H cfg).best with
  | some p => refineReturn fb wt W H cfg p
  | none =>
    match (t1Sizes fb wt W H cfg (fallback_sizes cfg) ⟨none, 0, 0⟩).best with
    | some p => p
    | none =>
      match (t2Sizes fb wt W H cfg (fallback_sizes cfg) ⟨none, 0, 0⟩).best with
      | some p => p
      | none =>
        match (t3aState fb wt W H cfg).best with
        | some p => p
        | none =>
          match (t3bState fb wt W H cfg).best with
          | some p => p
          | none => forcedPlacement W H cfg

/-- The search part with the local-refinement stage removed (used to state
that the refinement never changes the outcome). -/
def searchCoreNoRefine (fb wt : Img) (W H : ℕ) (cfg : Cfg) : Placement :=
  match (primState fb wt W H cfg).best with
  | some p => p
  | none =>
    match (t1Sizes fb wt W H cfg (fallback_sizes cfg) ⟨none, 0, 0⟩).best with
    | some p => p
    | none =>
      match (t2Sizes fb wt W H cfg (fallback_sizes cfg) ⟨none, 0, 0⟩).best with
      | some p => p
      | none =>
        match (t3aState fb wt W H cfg).best with
        | some p => p
        | none =>
          match (t3bState fb wt W H cfg).best with
          | some p => p
          | none => forcedPlacement W H cfg

/-- Text detection (thresholding branch, OCR disabled as in production):
threshold at 220, invert, horizontal/vertical openings and small closing,
union, protective dilation. -/
def textStage (W H : ℕ) (image : Img) (kc : KCache) : Img × KCache :=
  let binary := threshBin W H 220 image
  let inverted := invert255 W H binary
  let g1 := get_text_detection_kernel kc (30, 1)
  let horizontal_lines := openM W H g1.1.1 g1.1.2 inverted
  let g2 := get_text_detection_kernel g1.2 (1, 15)
  let vertical_lines := openM W H g2.1.1 g2.1.2 inverted
  let g3 := get_text_detection_kernel g2.2 (3, 3)
  let small_elements := closeM W H g3.1.1 g3.1.2 inverted
  let text_combined := bOr W H (bOr W H horizontal_lines vertical_lines) small_elements
  let g4 := get_text_detection_kernel g3.2 (30, 15)
  (dilateM W H g4.1.1 g4.1.2 text_combined, g4.2)

/-- Horizontal separator-line detection: inverse threshold at 200, up to
three openings with long horizontal kernels, union, vertical dilation. -/
def hlinesStage (W H : ℕ) (image : Img) (kc : KCache) : Img × KCache :=
  let line_binary := threshBinInv W H 200 image
  let a1 :=
    if 100 < W then
      let g := get_text_detection_kernel kc (max 100 (W / 3), 1)
      (bOr W H zeroImg (openM W H g.1.1 g.1.2 line_binary), g.2)
    else (zeroImg, kc)
  let a2 :=
    if 60 < W then
      let g := get_text_detection_kernel a1.2 (max 60 (W / 5), 1)
      (bOr W H a1.1 (openM W H g.1.1 g.1.2 line_binary), g.2)
    else a1
  let a3 :=
    if 30 < W then
      let g := get_text_detection_kernel a2.2 (max 30 (W / 10), 1)
      (bOr W H a2.1 (openM W H g.1.1 g.1.2 line_binary), g.2)
    else a2
  let gd := get_text_detection_kernel a3.2 (1, 15)
  (dilateM W H gd.1.1 gd.1.2 a3.1, gd.2)

/-- Vertical separator-line detection: two openings with long vertical
kernels, union, horizontal dilation. -/
def vlinesStage (W H : ℕ) (image : Img) (kc : KCache) : Img × KCache :=
  let line_binary := threshBinInv W H 200 image
  let a1 :=
    if 100 < H then
      let g := get_text_detection_kernel kc (1, max 100 (H / 3))
      (bOr W H zeroImg (openM W H g.1.1 g.1.2 line_binary), g.2)
    else (zeroImg, kc)
  let a2 :=
    if 60 < H then
      let g := get_text_detection_kernel a1.2 (1, max 60 (H / 5))
      (bOr W H a1.1 (openM W H g.1.1 g.1.2 line_binary), g.2)
    else a1
  let gd := get_text_detection_kernel a2.2 (15, 1)
  (dilateM W H gd.1.1 gd.1.2 a2.1, gd.2)

/-- One step of the image-detector contour loop: contours of enclosed area
above 5000 are filled, dilated with a 30×30 kernel and added to the image
mask and the forbidden mask. -/
def imageContourStep (W H : ℕ) (st : Img × Img × KCache) (c : Contour) : Img × Img × KCache :=
  if 5000 < c.area then
    let g := get_text_detection_kernel st.2.2 (30, 30)
    let cm := dilateM W H g.1.1 g.1.2 (fillC W H c)
    (bOr W H st.1 cm, bOr W H st.2.1 cm, g.2)
  else st

/-- Image detection: Gaussian blur, absolute Laplacian thresholded at 30,
external contours filtered by area.  Returns (image mask, updated
forbidden mask, cache). -/
def imageStage (be : ContourBackend) (W H : ℕ) (image forbidden : Img) (kc : KCache) :
    Img × Img × KCache :=
  let blurred := gauss5 W H image
  let image_detection := threshBin W H 30 (lapAbsU8 W H blurred)
  (be.external W H image_detection).foldl (imageContourStep W H) (zeroImg, forbidden, kc)

/-- One step of the QR-detector contour loop: contours with area in
(1000, 50000), nearly square bounding box and raster standard deviation
above 40 are filled, dilated with a 40×40 kernel and added to the QR and
forbidden masks. -/
def qrContourStep (W H : ℕ) (image : Img) (st : Img × Img × KCache) (c : Contour) :
    Img × Img × KCache :=
  if 1000 < c.area ∧ c.area < 50000 then
    let ar : ℚ := if c.rh = 0 then 0 else (c.rw : ℚ) / (c.rh : ℚ)
    if 7 / 10 < ar ∧ ar < 13 / 10 then
      if 0 < rectCnt W H c.ry c.rx c.rh c.rw then
        if stdGT40 W H image c.ry c.rx c.rh c.rw then
          let g := get_text_detection_kernel st.2.2 (40, 40)
          let qm := dilateM W H g.1.1 g.1.2 (fillC W H c)
          (bOr W H st.1 qm, bOr W H st.2.1 qm, g.2)
        else st
      else st
    else st
  else st

/-- QR detection: threshold at 128, full-hierarchy contours filtered by
area, aspect ratio and intensity spread. -/
def qrStage (be : ContourBackend) (W H : ℕ) (image forbidden : Img) (kc : KCache) :
    Img × Img × KCache :=
  let qr_binary := threshBin W H 128 image
  (be.tree W H qr_binary).foldl (qrContourStep W H image) (zeroImg, forbidden, kc)

/-- Everything `find_whitest_space` returns, together with the kernel
cache and the caller's raster after the call (the function never writes
into the raster). -/
structure FWResult where
  coords : Placement
  forbidden_mask : Img
  text_mask : Img
  image_mask : Img
  qrcode_mask : Img
  kcache : KCache
  raster : Img

/-- `find_whitest_space(image)`: build the text, line, image and QR masks,
union them into the forbidden mask, threshold the whiteness map, and run
the placement search. -/
def find_whitest_space (be : ContourBackend) (W H : ℕ) (image : Img) (cfg : Cfg)
    (kc : KCache) : FWResult :=
  let forbidden_mask0 := zeroImg
  let t := textStage W H image kc
  let forbidden1 := bOr W H forbidden_mask0 t.1
  let hl := hlinesStage W H image t.2
  let forbidden2 := bOr W H forbidden1 hl.1
  let vl := vlinesStage W H image hl.2
  let forbidden3 := bOr W H forbidden2 vl.1
  let im := imageStage be W H image forbidden3 vl.2
  let qr := qrStage be W H image im.2.1 im.2.2
  let white_binary := threshBin W H 245 image
  ⟨searchCore qr.2.1 white_binary W H cfg, qr.2.1, t.1, im.1, qr.1, qr.2.2, image⟩

/-! ### Basic list-range lemmas -/

theorem pyRange2_mem_ge {a b step v : ℕ} (hv : v ∈ pyRange2 a b step) : a ≤ v := by
  simp only [pyRange2, List.mem_map, List.mem_range] at hv
  obtain ⟨i, _, rfl⟩ := hv
  exact Nat.le_add_right a (i * step)

theorem pyRange2_mem_lt {a b step v : ℕ} (hstep : 0 < step) (hv : v ∈ pyRange2 a b step) :
    v < b := by
  simp only [pyRange2, List.mem_map, List.mem_range] at hv
  obtain ⟨i, hi, rfl⟩ := hv
  have h1 : (i + 1) * step ≤ ((b - a + step - 1) / step) * step :=
    Nat.mul_le_mul_right step hi
  have h2 : ((b - a + step - 1) / step) * step ≤ b - a + step - 1 :=
    Nat.div_mul_le_self _ _
  have h3 : (i + 1) * step = i * step + step := Nat.succ_mul i step
  omega

theorem pyRange2_cons {a b step : ℕ} (hab : a < b) (hstep : 0 < step) :
    ∃ t, pyRange2 a b step = a :: t := by
  have hcnt : 0 < (b - a + step - 1) / step := by
    have : step ≤ b - a + step - 1 := by omega
    exact Nat.div_pos this hstep
  obtain ⟨k, hk⟩ := Nat.exists_eq_succ_of_ne_zero hcnt.ne'
  refine ⟨((List.range k).map Nat.succ).map fun i => a + i * step, ?_⟩
  rw [pyRange2, hk, List.range_succ_eq_map, List.map_cons]
  simp only [Nat.zero_mul, Nat.add_zero]

theorem pyRange_mem_lt {n step v : ℕ} (hstep : 0 < step) (hv : v ∈ pyRange n step) : v < n :=
  pyRange2_mem_lt hstep hv

theorem pyRange_cons {n step : ℕ} (hn : 0 < n) (hstep : 0 < step) :
    ∃ t, pyRange n step = 0 :: t :=
  pyRange2_cons hn hstep

theorem pyRangeDown_mem_ge {a b step v : ℕ} (hv : v ∈ pyRangeDown a b step) : b ≤ v := by
  simp only [pyRangeDown] at hv
  by_cases hab : a < b
  · simp [hab] at hv
  · simp only [if_neg hab, List.mem_map, List.mem_range] at hv
    obtain ⟨i, hi, rfl⟩ := hv
    have h1 : i * step ≤ ((a - b) / step) * step := Nat.mul_le_mul_right step (by omega)
    have h2 : ((a - b) / step) * step ≤ a - b := Nat.div_mul_le_self _ _
    omega

theorem pyRangeDown_cons {a b step : ℕ} (hab : b ≤ a) :
    ∃ t, pyRangeDown a b step = a :: t := by
  refine ⟨((List.range ((a - b) / step)).map Nat.succ).map fun i => a - i * step, ?_⟩
  rw [pyRangeDown, if_neg (by omega : ¬a < b), List.range_succ_eq_map, List.map_cons]
  simp only [Nat.zero_mul, Nat.sub_zero]

theorem appendIfMissed_mem {l : List ℕ} {nz s : ℕ} (hs : s ∈ appendIfMissed l nz) :
    s ∈ l ∨ s = nz := by
  simp only [appendIfMissed] at hs
  split at hs
  · exact Or.inl hs
  · rcases List.mem_append.mp hs with h | h
    · exact Or.inl h
    · simp at h; exact Or.inr h

theorem search_sizes_mem {cfg : Cfg} {s : ℕ} (hs : s ∈ search_sizes_to_try cfg) :
    minZone cfg ≤ s := by
  rcases appendIfMissed_mem hs with h | rfl
  · exact pyRangeDown_mem_ge h
  · exact le_rfl

theorem fallback_sizes_mem {cfg : Cfg} {s : ℕ} (hs : s ∈ fallback_sizes cfg) :
    minZone cfg ≤ s := by
  rcases appendIfMissed_mem hs with h | rfl
  · exact pyRangeDown_mem_ge h
  · exact le_rfl

theorem appendIfMissed_cons {l : List ℕ} {a nz : ℕ} (h : ∃ t, l = a :: t) :
    ∃ t, appendIfMissed l nz = a :: t := by
  obtain ⟨t, rfl⟩ := h
  simp only [appendIfMissed]
  split
  · exact ⟨t, rfl⟩
  · exact ⟨t ++ [nz], List.cons_append a t [nz]⟩

theorem search_sizes_cons {cfg : Cfg} (hc : cfg.stamp_size_min ≤ cfg.stamp_size_max) :
    ∃ t, search_sizes_to_try cfg = max (cfg.stamp_size_max + 2 * min_margin) 410 :: t := by
  refine appendIfMissed_cons (pyRangeDown_cons ?_)
  simp only [minZone, min_margin]
  omega

/-! ### Fold evaluation lemmas -/

theorem fold_min_eq_of {α : Type} {s : Finset α} {f : α → ℕ} {b c : ℕ}
    (hall : ∀ a ∈ s, c ≤ f a) (hmem : ∃ a ∈ s, f a = c) (hb : c ≤ b) :
    s.fold min b f = c := by
  obtain ⟨a, ha, hfa⟩ := hmem
  refine le_antisymm ((Finset.fold_min_le c).mpr (Or.inr ⟨a, ha, le_of_eq hfa⟩)) ?_
  exact (Finset.le_fold_min c).mpr ⟨hb, hall⟩

theorem fold_max_eq_of {α : Type} {s : Finset α} {f : α → ℕ} {b c : ℕ}
    (hall : ∀ a ∈ s, f a ≤ c) (hmem : ∃ a ∈ s, f a = c) (hb : b ≤ c) :
    s.fold max b f = c := by
  obtain ⟨a, ha, hfa⟩ := hmem
  refine le_antisymm ((Finset.fold_max_le c).mpr ⟨hb, hall⟩) ?_
  exact (Finset.le_fold_max c).mpr (Or.inr ⟨a, ha, le_of_eq hfa.symm⟩)

theorem fold_min_binv {α : Type} {s : Finset α} {f : α → ℕ}
    (h : ∀ a ∈ s, f a = 0 ∨ f a = 255) :
    s.fold min 255 f = 0 ∨ s.fold min 255 f = 255 := by
  by_cases hex : ∃ a ∈ s, f a = 0
  · exact Or.inl (fold_min_eq_of (fun a _ => Nat.zero_le _) hex (Nat.zero_le _))
  · push_neg at hex
    rcases s.eq_empty_or_nonempty with rfl | ⟨a, ha⟩
    · exact Or.inr (by simp)
    · refine Or.inr (fold_min_eq_of (fun a' ha' => ?_) ⟨a, ha, ?_⟩ le_rfl)
      · rcases h a' ha' with h0 | h255
        · exact absurd h0 (hex a' ha')
        · omega
      · rcases h a ha with h0 | h255
        · exact absurd h0 (hex a ha)
        · exact h255

theorem fold_max_binv {α : Type} {s : Finset α} {f : α → ℕ}
    (h : ∀ a ∈ s, f a = 0 ∨ f a = 255) :
    s.fold max 0 f = 0 ∨ s.fold max 0 f = 255 := by
  rcases s.eq_empty_or_nonempty with rfl | ⟨a, ha⟩
  · exact Or.inl (by simp)
  · by_cases hex : ∃ a ∈ s, f a = 255
    · exact Or.inr (fold_max_eq_of (fun a' ha' => by rcases h a' ha' with h0 | h255 <;> omega)
        hex (Nat.zero_le _))
    · push_neg at hex
      refine Or.inl (fold_max_eq_of (fun a' ha' => ?_) ⟨a, ha, ?_⟩ le_rfl)
      · rcases h a' ha' with h0 | h255
        · omega
        · exact absurd h255 (hex a' ha')
      · rcases h a ha with h0 | h255
        · exact h0
        · exact absurd h255 (hex a ha)

/-! ### Binary-valued masks -/

/-- Every value of the mask is 0 or 255 (as for all the uint8 masks the
pipeline manipulates). -/
def Binv (m : Img) : Prop := ∀ y x, m y x = 0 ∨ m y x = 255

theorem binv_onPage {W H : ℕ} {f : ℤ → ℤ → ℕ}
    (h : ∀ y x, inB W H y x → f y x = 0 ∨ f y x = 255) : Binv (onPage W H f) := by
  intro y x
  simp only [onPage]
  split
  · exact h y x (by assumption)
  · exact Or.inl rfl

theorem binv_zeroImg : Binv zeroImg := fun _ _ => Or.inl rfl

theorem binv_threshBin {W H t : ℕ} {m : Img} : Binv (threshBin W H t m) :=
  binv_onPage fun y x _ => by split <;> simp

theorem binv_threshBinInv {W H t : ℕ} {m : Img} : Binv (threshBinInv W H t m) :=
  binv_onPage fun y x _ => by split <;> simp

theorem binv_invert255 {W H : ℕ} {m : Img} (hm : Binv m) : Binv (invert255 W H m) :=
  binv_onPage fun y x _ => by
    rcases hm y x with h | h <;> rw [h] <;> simp

theorem binv_bOr {W H : ℕ} {a b : Img} (ha : Binv a) (hb : Binv b) : Binv (bOr W H a b) :=
  binv_onPage fun y x _ => by
    rcases ha y x with h1 | h1 <;> rcases hb y x with h2 | h2 <;> rw [h1, h2] <;> decide

theorem binv_erodeM {W H kw kh : ℕ} {m : Img} (hm : Binv m) : Binv (erodeM W H kw kh m) :=
  binv_onPage fun y x _ => by
    refine fold_min_binv fun p _ => ?_
    split
    · exact hm _ _
    · exact Or.inr rfl

theorem binv_dilateM {W H kw kh : ℕ} {m : Img} (hm : Binv m) : Binv (dilateM W H kw kh m) :=
  binv_onPage fun y x _ => by
    refine fold_max_binv fun p _ => ?_
    split
    · exact hm _ _
    · exact Or.inl rfl

theorem binv_openM {W H kw kh : ℕ} {m : Img} (hm : Binv m) : Binv (openM W H kw kh m) :=
  binv_dilateM (binv_erodeM hm)

theorem binv_closeM {W H kw kh : ℕ} {m : Img} (hm : Binv m) : Binv (closeM W H kw kh m) :=
  binv_erodeM (binv_dilateM hm)

theorem binv_fillC {W H : ℕ} {c : Contour} : Binv (fillC W H c) :=
  binv_onPage fun y x _ => by split <;> simp

/-! ### Constant masks -/

/-- The mask equals `c` at every on-page position. -/
def ConstOn (W H : ℕ) (m : Img) (c : ℕ) : Prop := ∀ y x, inB W H y x → m y x = c

theorem constOn_onPage {W H : ℕ} {f : ℤ → ℤ → ℕ} {c : ℕ}
    (h : ∀ y x, inB W H y x → f y x = c) : ConstOn W H (onPage W H f) c := by
  intro y x hb
  simp only [onPage, if_pos hb]
  exact h y x hb

theorem constOn_threshBin {W H t c : ℕ} {m : Img} (hm : ConstOn W H m c) :
    ConstOn W H (threshBin W H t m) (if t < c then 255 else 0) :=
  constOn_onPage fun y x hb => by rw [hm y x hb]

theorem constOn_threshBinInv {W H t c : ℕ} {m : Img} (hm : ConstOn W H m c) :
    ConstOn W H (threshBinInv W H t m) (if t < c then 0 else 255) :=
  constOn_onPage fun y x hb => by rw [hm y x hb]

theorem constOn_invert255 {W H c : ℕ} {m : Img} (hm : ConstOn W H m c) :
    ConstOn W H (invert255 W H m) (255 - c) :=
  constOn_onPage fun y x hb => by rw [hm y x hb]

theorem constOn_bOr {W H c1 c2 : ℕ} {a b : Img} (ha : ConstOn W H a c1)
    (hb : ConstOn W H b c2) : ConstOn W H (bOr W H a b) (Nat.lor c1 c2) :=
  constOn_onPage fun y x hin => by rw [ha y x hin, hb y x hin]

theorem center_mem_winIdx {kw kh : ℕ} (hkw : 0 < kw) (hkh : 0 < kh) :
    (kh / 2, kw / 2) ∈ winIdx kw kh := by
  simp only [winIdx, Finset.mem_product, Finset.mem_range]
  exact ⟨Nat.div_lt_self hkh one_lt_two, Nat.div_lt_self hkw one_lt_two⟩

theorem constOn_erodeM {W H kw kh c : ℕ} {m : Img} (hm : ConstOn W H m c)
    (hc : c ≤ 255) (hkw : 0 < kw) (hkh : 0 < kh) : ConstOn W H (erodeM W H kw kh m) c :=
  constOn_onPage fun y x hb => by
    refine fold_min_eq_of (fun p _ => ?_) ⟨(kh / 2, kw / 2), center_mem_winIdx hkw hkh, ?_⟩ hc
    · split
      · rw [hm _ _ (by assumption)]
      · exact hc
    · rw [if_pos (by simpa using hb), hm _ _ (by simpa using hb)]

theorem constOn_dilateM {W H kw kh c : ℕ} {m : Img} (hm : ConstOn W H m c)
    (hkw : 0 < kw) (hkh : 0 < kh) : ConstOn W H (dilateM W H kw kh m) c :=
  constOn_onPage fun y x hb => by
    refine fold_max_eq_of (fun p _ => ?_) ⟨(kh / 2, kw / 2), center_mem_winIdx hkw hkh, ?_⟩
      (Nat.zero_le _)
    · split
      · rw [hm _ _ (by assumption)]
      · exact Nat.zero_le _
    · rw [if_pos (by simpa using hb), hm _ _ (by simpa using hb)]

theorem constOn_openM {W H kw kh c : ℕ} {m : Img} (hm : ConstOn W H m c)
    (hc : c ≤ 255) (hkw : 0 < kw) (hkh : 0 < kh) : ConstOn W H (openM W H kw kh m) c :=
  constOn_dilateM (constOn_erodeM hm hc hkw hkh) hkw hkh

theorem constOn_closeM {W H kw kh c : ℕ} {m : Img} (hm : ConstOn W H m c)
    (hc : c ≤ 255) (hkw : 0 < kw) (hkh : 0 < kh) : ConstOn W H (closeM W H kw kh m) c :=
  constOn_erodeM (constOn_dilateM hm hkw hkh) hc hkw hkh

theorem reflect_inB {n : ℕ} {i : ℤ} (hn : 3 ≤ n) (h1 : -2 ≤ i) (h2 : i < (n : ℤ) + 2) :
    0 ≤ reflect n i ∧ reflect n i < (n : ℤ) := by
  simp only [reflect]
  split
  · omega
  · split <;> omega

/-- The `H × W` image that is `c` on the page and (canonically) 0 outside. -/
def pageConst (W H c : ℕ) : Img := onPage W H fun _ _ => c

theorem onPage_eq_pageConst {W H c : ℕ} {f : ℤ → ℤ → ℕ}
    (h : ∀ y x, inB W H y x → f y x = c) : onPage W H f = pageConst W H c := by
  funext y x
  simp only [onPage, pageConst]
  split
  · exact h y x (by assumption)
  · rfl

theorem pageConst_zero {W H : ℕ} : pageConst W H 0 = zeroImg := by
  funext y x
  simp [pageConst, onPage, zeroImg]

theorem constOn_pageConst {W H c : ℕ} : ConstOn W H (pageConst W H c) c :=
  constOn_onPage fun _ _ _ => rfl

theorem constOn_gauss5 {W H c : ℕ} {m : Img} (hm : ConstOn W H m c)
    (hW : 3 ≤ W) (hH : 3 ≤ H) : ConstOn W H (gauss5 W H m) c := by
  refine constOn_onPage fun y x hb => ?_
  obtain ⟨hy0, hyH, hx0, hxW⟩ := hb
  have hval : ∀ p ∈ winIdx 5 5,
      gw p.1 * gw p.2 * m (reflect H (y + (p.1 : ℤ) - 2)) (reflect W (x + (p.2 : ℤ) - 2))
        = gw p.1 * gw p.2 * c := by
    intro p hp
    simp only [winIdx, Finset.mem_product, Finset.mem_range] at hp
    have hry := reflect_inB (i := y + (p.1 : ℤ) - 2) hH (by omega) (by omega)
    have hrx := reflect_inB (i := x + (p.2 : ℤ) - 2) hW (by omega) (by omega)
    rw [hm _ _ ⟨hry.1, hry.2, hrx.1, hrx.2⟩]
  rw [Finset.sum_congr rfl hval, ← Finset.sum_mul]
  have hw : (∑ p ∈ winIdx 5 5, gw p.1 * gw p.2) = 256 := by decide
  rw [hw]
  omega

theorem constOn_lapAbsU8 {W H c : ℕ} {m : Img} (hm : ConstOn W H m c)
    (hW : 3 ≤ W) (hH : 3 ≤ H) : ConstOn W H (lapAbsU8 W H m) 0 := by
  refine constOn_onPage fun y x hb => ?_
  obtain ⟨hy0, hyH, hx0, hxW⟩ := hb
  have hrym := reflect_inB (i := y - 1) hH (by omega) (by omega)
  have hryp := reflect_inB (i := y + 1) hH (by omega) (by omega)
  have hrxm := reflect_inB (i := x - 1) hW (by omega) (by omega)
  have hrxp := reflect_inB (i := x + 1) hW (by omega) (by omega)
  rw [hm _ _ ⟨hrym.1, hrym.2, hx0, hxW⟩, hm _ _ ⟨hryp.1, hryp.2, hx0, hxW⟩,
    hm _ _ ⟨hy0, hyH, hrxm.1, hrxm.2⟩, hm _ _ ⟨hy0, hyH, hrxp.1, hrxp.2⟩,
    hm _ _ ⟨hy0, hyH, hx0, hxW⟩]
  omega

/-! ### Kernel cache -/

theorem getKern_wfk {kc : KCache} (hkc : WFK kc) (sz : ℕ × ℕ) :
    (get_text_detection_kernel kc sz).1 = sz ∧ WFK (get_text_detection_kernel kc sz).2 := by
  rcases hf : kc.find? (fun p => decide (p.1 = sz)) with _ | p
  · have e : get_text_detection_kernel kc sz = (sz, ((sz, sz) :: kc).take 32) := by
      unfold get_text_detection_kernel
      rw [hf]
    rw [e]
    refine ⟨rfl, fun q hq => ?_⟩
    rcases List.mem_cons.mp (List.mem_of_mem_take hq) with rfl | h
    · rfl
    · exact hkc q h
  · have hp1 : p.1 = sz := by
      have := List.find?_some hf
      simpa using this
    have hpm : p ∈ kc := List.mem_of_find?_eq_some hf
    have hp2 : p.2 = sz := (hkc p hpm).trans hp1
    have e : get_text_detection_kernel kc sz
        = (p.2, ((sz, p.2) :: kc.filter fun q => decide (q.1 ≠ sz)).take 32) := by
      unfold get_text_detection_kernel
      rw [hf]
    rw [e]
    refine ⟨hp2, fun q hq => ?_⟩
    rcases List.mem_cons.mp (List.mem_of_mem_take hq) with rfl | h
    · exact hp2
    · exact hkc q (List.mem_of_mem_filter h)

/-! ### ROI sums and ratios -/

theorem roiSum_constOn {W H c : ℕ} {m : Img} (hm : ConstOn W H m c) {y x s : ℕ}
    (hy : y + s ≤ H) (hx : x + s ≤ W) : roiSum m y x s = c * (s * s) := by
  have hval : ∀ i ∈ Finset.range s, ∀ j ∈ Finset.range s,
      m ((y : ℤ) + (i : ℤ)) ((x : ℤ) + (j : ℤ)) = c := by
    intro i hi j hj
    simp only [Finset.mem_range] at hi hj
    refine hm _ _ ⟨by positivity, ?_, by positivity, ?_⟩ <;> omega
  calc roiSum m y x s
      = ∑ i ∈ Finset.range s, ∑ j ∈ Finset.range s, c :=
        Finset.sum_congr rfl fun i hi => Finset.sum_congr rfl fun j hj => hval i hi j hj
    _ = c * (s * s) := by simp [Finset.sum_const, Nat.mul_comm, Nat.mul_left_comm]

theorem roiSum_constFn {c y x s : ℕ} : roiSum (fun _ _ => c) y x s = c * (s * s) := by
  simp [roiSum, Finset.sum_const, Nat.mul_comm, Nat.mul_left_comm]

theorem wr_of_roiSum {wt : Img} {y x s : ℕ} (h : roiSum wt y x s = 255 * (s * s))
    (hs : 0 < s) : wr wt y x s = 1 := by
  rw [wr, h]
  push_cast
  rw [div_eq_one_iff_eq (by positivity)]
  ring_nf

theorem fr_of_roiSum255 {fb : Img} {y x s : ℕ} (h : roiSum fb y x s = 255 * (s * s))
    (hs : 0 < s) : fr fb y x s = 255 := by
  rw [fr, h]
  push_cast
  rw [div_eq_iff (by positivity)]

theorem fr_of_roiSum0 {fb : Img} {y x s : ℕ} (h : roiSum fb y x s = 0) :
    fr fb y x s = 0 := by
  rw [fr, h]
  simp

/-! ### Cache-free form of the mask pipeline

Under any well-formed cache state, `_get_text_detection_kernel` returns
exactly the rectangle of the requested size, so the pipeline's masks equal
the following cache-free expressions. -/

/-- Cache-free text mask. -/
def textMaskC (W H : ℕ) (image : Img) : Img :=
  let inverted := invert255 W H (threshBin W H 220 image)
  dilateM W H 30 15
    (bOr W H (bOr W H (openM W H 30 1 inverted) (openM W H 1 15 inverted))
      (closeM W H 3 3 inverted))

/-- Cache-free horizontal-line mask. -/
def hlinesC (W H : ℕ) (image : Img) : Img :=
  let line_binary := threshBinInv W H 200 image
  let a1 := if 100 < W then bOr W H zeroImg (openM W H (max 100 (W / 3)) 1 line_binary)
    else zeroImg
  let a2 := if 60 < W then bOr W H a1 (openM W H (max 60 (W / 5)) 1 line_binary) else a1
  let a3 := if 30 < W then bOr W H a2 (openM W H (max 30 (W / 10)) 1 line_binary) else a2
  dilateM W H 1 15 a3

/-- Cache-free vertical-line mask. -/
def vlinesC (W H : ℕ) (image : Img) : Img :=
  let line_binary := threshBinInv W H 200 image
  let a1 := if 100 < H then bOr W H zeroImg (openM W H 1 (max 100 (H / 3)) line_binary)
    else zeroImg
  let a2 := if 60 < H then bOr W H a1 (openM W H 1 (max 60 (H / 5)) line_binary) else a1
  dilateM W H 15 1 a2

/-- Cache-free image-contour step. -/
def imageContourStepC (W H : ℕ) (st : Img × Img) (c : Contour) : Img × Img :=
  if 5000 < c.area then
    let cm := dilateM W H 30 30 (fillC W H c)
    (bOr W H st.1 cm, bOr W H st.2 cm)
  else st

/-- Cache-free image stage. -/
def imageStageC (be : ContourBackend) (W H : ℕ) (image forbidden : Img) : Img × Img :=
  (be.external W H (threshBin W H 30 (lapAbsU8 W H (gauss5 W H image)))).foldl
    (imageContourStepC W H) (zeroImg, forbidden)

/-- Cache-free QR-contour step. -/
def qrContourStepC (W H : ℕ) (image : Img) (st : Img × Img) (c : Contour) : Img × Img :=
  if 1000 < c.area ∧ c.area < 50000 then
    let ar : ℚ := if c.rh = 0 then 0 else (c.rw : ℚ) / (c.rh : ℚ)
    if 7 / 10 < ar ∧ ar < 13 / 10 then
      if 0 < rectCnt W H c.ry c.rx c.rh c.rw then
        if stdGT40 W H image c.ry c.rx c.rh c.rw then
          let qm := dilateM W H 40 40 (fillC W H c)
          (bOr W H st.1 qm, bOr W H st.2 qm)
        else st
      else st
    else st
  else st

/-- Cache-free QR stage. -/
def qrStageC (be : ContourBackend) (W H : ℕ) (image forbidden : Img) : Img × Img :=
  (be.tree W H (threshBin W H 128 image)).foldl (qrContourStepC W H image) (zeroImg, forbidden)

/-- The forbidden mask just before the image and QR detectors. -/
def preMaskC (W H : ℕ) (image : Img) : Img :=
  bOr W H (bOr W H (bOr W H zeroImg (textMaskC W H image)) (hlinesC W H image))
    (vlinesC W H image)

/-- Image stage output (image mask, forbidden mask) in cache-free form. -/
def imagePairC (be : ContourBackend) (W H : ℕ) (image : Img) : Img × Img :=
  imageStageC be W H image (preMaskC W H image)

/-- QR stage output (QR mask, forbidden mask) in cache-free form. -/
def qrPairC (be : ContourBackend) (W H : ℕ) (image : Img) : Img × Img :=
  qrStageC be W H image (imagePairC be W H image).2

/-- The final forbidden mask in cache-free form. -/
def forbiddenC (be : ContourBackend) (W H : ℕ) (image : Img) : Img :=
  (qrPairC be W H image).2

/-- The whiteness map `white_binary`. -/
def whiteC (W H : ℕ) (image : Img) : Img := threshBin W H 245 image

theorem textStage_eq {W H : ℕ} {image : Img} {kc : KCache} (hkc : WFK kc) :
    (textStage W H image kc).1 = textMaskC W H image ∧ WFK (textStage W H image kc).2 := by
  obtain ⟨e1, w1⟩ := getKern_wfk hkc (30, 1)
  obtain ⟨e2, w2⟩ := getKern_wfk w1 (1, 15)
  obtain ⟨e3, w3⟩ := getKern_wfk w2 (3, 3)
  obtain ⟨e4, w4⟩ := getKern_wfk w3 (30, 15)
  constructor
  · simp only [textStage, textMaskC]
    rw [e1, e2, e3, e4]
  · simpa only [textStage] using w4

theorem hlinesStage_eq {W H : ℕ} {image : Img} {kc : KCache} (hkc : WFK kc) :
    (hlinesStage W H image kc).1 = hlinesC W H image ∧ WFK (hlinesStage W H image kc).2 := by
  by_cases h100 : 100 < W <;> by_cases h60 : 60 < W <;> by_cases h30 : 30 < W
  · obtain ⟨e1, w1⟩ := getKern_wfk hkc (max 100 (W / 3), 1)
    obtain ⟨e2, w2⟩ := getKern_wfk w1 (max 60 (W / 5), 1)
    obtain ⟨e3, w3⟩ := getKern_wfk w2 (max 30 (W / 10), 1)
    obtain ⟨e4, w4⟩ := getKern_wfk w3 (1, 15)
    constructor
    · simp only [hlinesStage, hlinesC, if_pos h100, if_pos h60, if_pos h30]
      rw [e1, e2, e3, e4]
    · simpa only [hlinesStage, if_pos h100, if_pos h60, if_pos h30] using w4
  · omega
  · omega
  · omega
  · obtain ⟨e2, w2⟩ := getKern_wfk hkc (max 60 (W / 5), 1)
    obtain ⟨e3, w3⟩ := getKern_wfk w2 (max 30 (W / 10), 1)
    obtain ⟨e4, w4⟩ := getKern_wfk w3 (1, 15)
    constructor
    · simp only [hlinesStage, hlinesC, if_neg h100, if_pos h60, if_pos h30]
      rw [e2, e3, e4]
    · simpa only [hlinesStage, if_neg h100, if_pos h60, if_pos h30] using w4
  · omega
  · obtain ⟨e3, w3⟩ := getKern_wfk hkc (max 30 (W / 10), 1)
    obtain ⟨e4, w4⟩ := getKern_wfk w3 (1, 15)
    constructor
    · simp only [hlinesStage, hlinesC, if_neg h100, if_neg h60, if_pos h30]
      rw [e3, e4]
    · simpa only [hlinesStage, if_neg h100, if_neg h60, if_pos h30] using w4
  · obtain ⟨e4, w4⟩ := getKern_wfk hkc (1, 15)
    constructor
    · simp only [hlinesStage, hlinesC, if_neg h100, if_neg h60, if_neg h30]
      rw [e4]
    · simpa only [hlinesStage, if_neg h100, if_neg h60, if_neg h30] using w4

theorem vlinesStage_eq {W H : ℕ} {image : Img} {kc : KCache} (hkc : WFK kc) :
    (vlinesStage W H image kc).1 = vlinesC W H image ∧ WFK (vlinesStage W H image kc).2 := by
  by_cases h100 : 100 < H <;> by_cases h60 : 60 < H
  · obtain ⟨e1, w1⟩ := getKern_wfk hkc (1, max 100 (H / 3))
    obtain ⟨e2, w2⟩ := getKern_wfk w1 (1, max 60 (H / 5))
    obtain ⟨e3, w3⟩ := getKern_wfk w2 (15, 1)
    constructor
    · simp only [vlinesStage, vlinesC, if_pos h100, if_pos h60]
      rw [e1, e2, e3]
    · simpa only [vlinesStage, if_pos h100, if_pos h60] using w3
  · omega
  · obtain ⟨e2, w2⟩ := getKern_wfk hkc (1, max 60 (H / 5))
    obtain ⟨e3, w3⟩ := getKern_wfk w2 (15, 1)
    constructor
    · simp only [vlinesStage, vlinesC, if_neg h100, if_pos h60]
      rw [e2, e3]
    · simpa only [vlinesStage, if_neg h100, if_pos h60] using w3
  · obtain ⟨e3, w3⟩ := getKern_wfk hkc (15, 1)
    constructor
    · simp only [vlinesStage, vlinesC, if_neg h100, if_neg h60]
      rw [e3]
    · simpa only [vlinesStage, if_neg h100, if_neg h60] using w3

theorem imageFold_eq {W H : ℕ} (l : List Contour) :
    ∀ (im fb : Img) (kc : KCache), WFK kc →
      (l.foldl (imageContourStep W H) (im, fb, kc)).1
          = (l.foldl (imageContourStepC W H) (im, fb)).1
        ∧ (l.foldl (imageContourStep W H) (im, fb, kc)).2.1
          = (l.foldl (imageContourStepC W H) (im, fb)).2
        ∧ WFK (l.foldl (imageContourStep W H) (im, fb, kc)).2.2 := by
  induction l with
  | nil => exact fun im fb kc hkc => ⟨rfl, rfl, hkc⟩
  | cons c l ih =>
    intro im fb kc hkc
    obtain ⟨e, w⟩ := getKern_wfk hkc (30, 30)
    by_cases hc : 5000 < c.area
    · have hstep : imageContourStep W H (im, fb, kc) c
          = (bOr W H im (dilateM W H 30 30 (fillC W H c)),
             bOr W H fb (dilateM W H 30 30 (fillC W H c)),
             (get_text_detection_kernel kc (30, 30)).2) := by
        simp only [imageContourStep, if_pos hc]
        rw [e]
      have hstepC : imageContourStepC W H (im, fb) c
          = (bOr W H im (dilateM W H 30 30 (fillC W H c)),
             bOr W H fb (dilateM W H 30 30 (fillC W H c))) := by
        simp only [imageContourStepC, if_pos hc]
      simp only [List.foldl_cons, hstep, hstepC]
      exact ih _ _ _ w
    · have hstep : imageContourStep W H (im, fb, kc) c = (im, fb, kc) := by
        simp only [imageContourStep, if_neg hc]
      have hstepC : imageContourStepC W H (im, fb) c = (im, fb) := by
        simp only [imageContourStepC, if_neg hc]
      simp only [List.foldl_cons, hstep, hstepC]
      exact ih _ _ _ hkc

theorem qrFold_eq {W H : ℕ} {image : Img} (l : List Contour) :
    ∀ (qm fb : Img) (kc : KCache), WFK kc →
      (l.foldl (qrContourStep W H image) (qm, fb, kc)).1
          = (l.foldl (qrContourStepC W H image) (qm, fb)).1
        ∧ (l.foldl (qrContourStep W H image) (qm, fb, kc)).2.1
          = (l.foldl (qrContourStepC W H image) (qm, fb)).2
        ∧ WFK (l.foldl (qrContourStep W H image) (qm, fb, kc)).2.2 := by
  induction l with
  | nil => exact fun qm fb kc hkc => ⟨rfl, rfl, hkc⟩
  | cons c l ih =>
    intro qm fb kc hkc
    obtain ⟨e, w⟩ := getKern_wfk hkc (40, 40)
    by_cases h1 : 1000 < c.area ∧ c.area < 50000
    · by_cases h2 : 7 / 10 < (if c.rh = 0 then (0 : ℚ) else (c.rw : ℚ) / (c.rh : ℚ))
          ∧ (if c.rh = 0 then (0 : ℚ) else (c.rw : ℚ) / (c.rh : ℚ)) < 13 / 10
      · by_cases h3 : 0 < rectCnt W H c.ry c.rx c.rh c.rw
        · by_cases h4 : stdGT40 W H image c.ry c.rx c.rh c.rw
          · have hstep : qrContourStep W H image (qm, fb, kc) c
                = (bOr W H qm (dilateM W H 40 40 (fillC W H c)),
                   bOr W H fb (dilateM W H 40 40 (fillC W H c)),
                   (get_text_detection_kernel kc (40, 40)).2) := by
              simp only [qrContourStep, if_pos h1, if_pos h2, if_pos h3, if_pos h4]
              rw [e]
            have hstepC : qrContourStepC W H image (qm, fb) c
                = (bOr W H qm (dilateM W H 40 40 (fillC W H c)),
                   bOr W H fb (dilateM W H 40 40 (fillC W H c))) := by
              simp only [qrContourStepC, if_pos h1, if_pos h2, if_pos h3, if_pos h4]
            simp only [List.foldl_cons, hstep, hstepC]
            exact ih _ _ _ w
          · simp only [List.foldl_cons, qrContourStep, qrContourStepC, if_pos h1, if_pos h2,
              if_pos h3, if_neg h4]
            exact ih _ _ _ hkc
        · simp only [List.foldl_cons, qrContourStep, qrContourStepC, if_pos h1, if_pos h2,
            if_neg h3]
          exact ih _ _ _ hkc
      · simp only [List.foldl_cons, qrContourStep, qrContourStepC, if_pos h1, if_neg h2]
        exact ih _ _ _ hkc
    · simp only [List.foldl_cons, qrContourStep, qrContourStepC, if_neg h1]
      exact ih _ _ _ hkc

theorem imageStage_eq {be : ContourBackend} {W H : ℕ} {image fb : Img} {kc : KCache}
    (hkc : WFK kc) :
    (imageStage be W H image fb kc).1 = (imageStageC be W H image fb).1
      ∧ (imageStage be W H image fb kc).2.1 = (imageStageC be W H image fb).2
      ∧ WFK (imageStage be W H image fb kc).2.2 := by
  simp only [imageStage, imageStageC]
  exact imageFold_eq _ _ _ _ hkc

theorem qrStage_eq {be : ContourBackend} {W H : ℕ} {image fb : Img} {kc : KCache}
    (hkc : WFK kc) :
    (qrStage be W H image fb kc).1 = (qrStageC be W H image fb).1
      ∧ (qrStage be W H image fb kc).2.1 = (qrStageC be W H image fb).2
      ∧ WFK (qrStage be W H image fb kc).2.2 := by
  simp only [qrStage, qrStageC]
  exact qrFold_eq _ _ _ _ hkc

/-- Under any well-formed kernel-cache state, `find_whitest_space` returns
exactly the cache-free masks and the search result over them. -/
theorem find_masks_eq {be : ContourBackend} {W H : ℕ} {image : Img} {cfg : Cfg}
    {kc : KCache} (hkc : WFK kc) :
    (find_whitest_space be W H image cfg kc).coords
        = searchCore (forbiddenC be W H image) (whiteC W H image) W H cfg
      ∧ (find_whitest_space be W H image cfg kc).forbidden_mask = forbiddenC be W H image
      ∧ (find_whitest_space be W H image cfg kc).text_mask = textMaskC W H image
      ∧ (find_whitest_space be W H image cfg kc).image_mask = (imagePairC be W H image).1
      ∧ (find_whitest_space be W H image cfg kc).qrcode_mask = (qrPairC be W H image).1 := by
  obtain ⟨te, tw⟩ := @textStage_eq W H image kc hkc
  obtain ⟨he, hw'⟩ := @hlinesStage_eq W H image _ tw
  obtain ⟨ve, vw⟩ := @vlinesStage_eq W H image _ hw'
  obtain ⟨ie1, ie2, iw⟩ := @imageStage_eq be W H image
    (bOr W H (bOr W H (bOr W H zeroImg (textStage W H image kc).1)
      (hlinesStage W H image (textStage W H image kc).2).1)
      (vlinesStage W H image (hlinesStage W H image (textStage W H image kc).2).2).1) _ vw
  obtain ⟨qe1, qe2, _⟩ := @qrStage_eq be W H image
    ((imageStage be W H image
      (bOr W H (bOr W H (bOr W H zeroImg (textStage W H image kc).1)
        (hlinesStage W H image (textStage W H image kc).2).1)
        (vlinesStage W H image (hlinesStage W H image (textStage W H image kc).2).2).1)
      (vlinesStage W H image (hlinesStage W H image (textStage W H image kc).2).2).2).2.1) _ iw
  simp only [find_whitest_space, whiteC, forbiddenC, qrPairC, imagePairC, preMaskC]
  rw [qe1, qe2, ie2, ie1, te, he, ve]
  exact ⟨rfl, rfl, rfl, rfl, rfl⟩

/-! ### Flattened view of the primary scan -/

/-- The candidates `(s, y, x)` of the primary scan, in exactly the order
the three nested loops visit them: sizes largest first, then ascending
`y`, then ascending `x`, with the adaptive step. -/
def primCands (W H : ℕ) (cfg : Cfg) : List (ℕ × ℕ × ℕ) :=
  (search_sizes_to_try cfg).flatMap fun s =>
    if W ≤ s ∨ H ≤ s then []
    else (pyRange (H - s) (stepFor cfg s)).flatMap fun y =>
      (pyRange (W - s) (stepFor cfg s)).map fun x => (s, y, x)

/-- The primary scan as a single left-to-right sweep over `primCands` that
stops as soon as `best_stamp_size` has reached `stamp_size_max`. -/
def flatLoop (fb wt : Img) (cfg : Cfg) : List (ℕ × ℕ × ℕ) → PState → PState
  | [], st => st
  | c :: cs, st =>
    if cfg.stamp_size_max ≤ st.bestStamp then st
    else flatLoop fb wt cfg cs (stepCand fb wt cfg c.1 c.2.1 c.2.2 st)

theorem flatLoop_done {fb wt : Img} {cfg : Cfg} {st : PState}
    (h : cfg.stamp_size_max ≤ st.bestStamp) (l : List (ℕ × ℕ × ℕ)) :
    flatLoop fb wt cfg l st = st := by
  cases l with
  | nil => rfl
  | cons c cs => simp only [flatLoop, if_pos h]

theorem flatLoop_append {fb wt : Img} {cfg : Cfg} (l1 l2 : List (ℕ × ℕ × ℕ)) (st : PState) :
    flatLoop fb wt cfg (l1 ++ l2) st = flatLoop fb wt cfg l2 (flatLoop fb wt cfg l1 st) := by
  induction l1 generalizing st with
  | nil => rfl
  | cons c cs ih =>
    by_cases h : cfg.stamp_size_max ≤ st.bestStamp
    · rw [List.cons_append]
      simp only [flatLoop, if_pos h]
      exact (flatLoop_done h l2).symm
    · rw [List.cons_append]
      simp only [flatLoop, if_neg h]
      exact ih _

theorem loopX_eq_flat {fb wt : Img} {cfg : Cfg} {s y : ℕ} (xs : List ℕ) :
    ∀ st : PState, ¬cfg.stamp_size_max ≤ st.bestStamp →
      loopX fb wt cfg s y xs st = flatLoop fb wt cfg (xs.map fun x => (s, y, x)) st := by
  induction xs with
  | nil => intro st _; rfl
  | cons x xs ih =>
    intro st hst
    simp only [loopX, List.map_cons, flatLoop, if_neg hst]
    by_cases h1 : cfg.stamp_size_max ≤ (stepCand fb wt cfg s y x st).bestStamp
    · rw [if_pos h1, flatLoop_done h1]
    · rw [if_neg h1, ih _ h1]

theorem loopY_eq_flat {fb wt : Img} {W : ℕ} {cfg : Cfg} {s : ℕ} (ys : List ℕ) :
    ∀ st : PState, ¬cfg.stamp_size_max ≤ st.bestStamp →
      loopY fb wt W cfg s ys st
        = flatLoop fb wt cfg
            (ys.flatMap fun y => (pyRange (W - s) (stepFor cfg s)).map fun x => (s, y, x)) st := by
  induction ys with
  | nil => intro st _; rfl
  | cons y ys ih =>
    intro st hst
    simp only [loopY, List.flatMap_cons, flatLoop_append]
    rw [← loopX_eq_flat _ _ hst]
    by_cases h1 : cfg.stamp_size_max ≤ (loopX fb wt cfg s y (pyRange (W - s) (stepFor cfg s)) st).bestStamp
    · rw [if_pos h1, flatLoop_done h1]
    · rw [if_neg h1, ih _ h1]

theorem loopS_eq_flat {fb wt : Img} {W H : ℕ} {cfg : Cfg} (ss : List ℕ) :
    ∀ st : PState,
      loopS fb wt W H cfg ss st
        = flatLoop fb wt cfg
            (ss.flatMap fun s =>
              if W ≤ s ∨ H ≤ s then []
              else (pyRange (H - s) (stepFor cfg s)).flatMap fun y =>
                (pyRange (W - s) (stepFor cfg s)).map fun x => (s, y, x)) st := by
  induction ss with
  | nil => intro st; rfl
  | cons s ss ih =>
    intro st
    simp only [loopS, List.flatMap_cons, flatLoop_append]
    by_cases hdone : cfg.stamp_size_max ≤ st.bestStamp
    · rw [if_pos hdone, flatLoop_done hdone, flatLoop_done hdone]
    · rw [if_neg hdone]
      by_cases hfit : W ≤ s ∨ H ≤ s
      · rw [if_pos hfit, if_pos hfit, ih]
        rfl
      · rw [if_neg hfit, if_neg hfit, ih, loopY_eq_flat _ _ hdone]

theorem primState_eq_flat (fb wt : Img) (W H : ℕ) (cfg : Cfg) :
    primState fb wt W H cfg = flatLoop fb wt cfg (primCands W H cfg) ⟨none, 0⟩ :=
  loopS_eq_flat _ _

/-- `stepFor` always yields a positive step. -/
theorem stepFor_pos (cfg : Cfg) (s : ℕ) : 0 < stepFor cfg s := by
  rw [stepFor]
  split <;> omega

theorem primCands_mem {W H : ℕ} {cfg : Cfg} {c : ℕ × ℕ × ℕ} (hc : c ∈ primCands W H cfg) :
    c.1 ∈ search_sizes_to_try cfg ∧ c.1 < W ∧ c.1 < H
      ∧ c.2.1 + c.1 ≤ H ∧ c.2.2 + c.1 ≤ W := by
  simp only [primCands, List.mem_flatMap] at hc
  obtain ⟨s, hs, hc⟩ := hc
  by_cases hfit : W ≤ s ∨ H ≤ s
  · rw [if_pos hfit] at hc
    simp at hc
  · rw [if_neg hfit] at hc
    simp only [List.mem_flatMap, List.mem_map] at hc
    obtain ⟨y, hy, x, hx, rfl⟩ := hc
    have hys := pyRange_mem_lt (stepFor_pos cfg s) hy
    have hxs := pyRange_mem_lt (stepFor_pos cfg s) hx
    show s ∈ _ ∧ s < W ∧ s < H ∧ y + s ≤ H ∧ x + s ≤ W
    exact ⟨hs, by omega, by omega, by omega, by omega⟩

/-! ### The maximal-stamp early exit -/

/-- A primary-scan candidate that triggers the immediate-stop branch: it
is clean, its effective stamp is admissible, and that stamp reaches
`stamp_size_max`. -/
def acceptMax (fb wt : Img) (cfg : Cfg) (s y x : ℕ) : Prop :=
  cleanPrim fb wt cfg s y x
    ∧ cfg.stamp_size_min ≤ min (s - 2 * min_margin) cfg.stamp_size_max
    ∧ cfg.stamp_size_max ≤ min (s - 2 * min_margin) cfg.stamp_size_max

instance (fb wt : Img) (cfg : Cfg) (s y x : ℕ) : Decidable (acceptMax fb wt cfg s y x) :=
  inferInstanceAs (Decidable (_ ∧ _ ∧ _))

theorem stepCand_acceptMax {fb wt : Img} {cfg : Cfg} {s y x : ℕ} (st : PState)
    (h : acceptMax fb wt cfg s y x) :
    stepCand fb wt cfg s y x st
      = ⟨some ⟨x, y, s, cfg.stamp_size_max⟩, cfg.stamp_size_max⟩ := by
  obtain ⟨hc, hmin, hmax⟩ := h
  have heq : min (s - 2 * min_margin) cfg.stamp_size_max = cfg.stamp_size_max :=
    le_antisymm (min_le_right _ _) hmax
  simp only [stepCand, if_pos hc, heq, if_pos (heq ▸ hmin), if_pos le_rfl]

theorem stepCand_keeps_lt {fb wt : Img} {cfg : Cfg} {s y x : ℕ} {st : PState}
    (h : ¬acceptMax fb wt cfg s y x) (hlt : st.bestStamp < cfg.stamp_size_max) :
    (stepCand fb wt cfg s y x st).bestStamp < cfg.stamp_size_max := by
  by_cases hc : cleanPrim fb wt cfg s y x
  · by_cases hmin : cfg.stamp_size_min ≤ min (s - 2 * min_margin) cfg.stamp_size_max
    · by_cases hmax : cfg.stamp_size_max ≤ min (s - 2 * min_margin) cfg.stamp_size_max
      · exact absurd ⟨hc, hmin, hmax⟩ h
      · simp only [stepCand, if_pos hc, if_pos hmin, if_neg hmax]
        split
        · simpa using lt_of_not_le hmax
        · exact hlt
    · simpa only [stepCand, if_pos hc, if_neg hmin] using hlt
  · simpa only [stepCand, if_neg hc] using hlt

theorem flatLoop_first_max {fb wt : Img} {cfg : Cfg} (l1 : List (ℕ × ℕ × ℕ)) :
    ∀ (c : ℕ × ℕ × ℕ) (l2 : List (ℕ × ℕ × ℕ)) (st : PState),
      st.bestStamp < cfg.stamp_size_max →
      (∀ c' ∈ l1, ¬acceptMax fb wt cfg c'.1 c'.2.1 c'.2.2) →
      acceptMax fb wt cfg c.1 c.2.1 c.2.2 →
      flatLoop fb wt cfg (l1 ++ c :: l2) st
        = ⟨some ⟨c.2.2, c.2.1, c.1, cfg.stamp_size_max⟩, cfg.stamp_size_max⟩ := by
  induction l1 with
  | nil =>
    intro c l2 st hst _ hacc
    simp only [List.nil_append, flatLoop, if_neg (not_le.mpr hst)]
    rw [stepCand_acceptMax st hacc, flatLoop_done le_rfl]
  | cons c' l1 ih =>
    intro c l2 st hst hbefore hacc
    rw [List.cons_append]
    simp only [flatLoop, if_neg (not_le.mpr hst)]
    exact ih c l2 _ (stepCand_keeps_lt (hbefore c' (List.mem_cons_self c' l1)) hst)
      (fun d hd => hbefore d (List.mem_cons_of_mem c' hd)) hacc

/-! ### The local refinement never changes the result -/

theorem foldl_fixpoint {α β : Type} {f : β → α → β} {st : β} :
    ∀ l : List α, (∀ a ∈ l, f st a = st) → l.foldl f st = st := by
  intro l
  induction l with
  | nil => intro _; rfl
  | cons a l ih =>
    intro h
    rw [List.foldl_cons, h a (List.mem_cons_self a l)]
    exact ih fun a' ha' => h a' (List.mem_cons_of_mem a ha')

theorem refStep_fix {fb wt : Img} {cfg : Cfg} {p : Placement}
    (hp : p.stamp_size = min (p.size - 2 * min_margin) cfg.stamp_size_max) (a : ℕ × ℕ) :
    refStep fb wt cfg p.size (⟨none, p.stamp_size⟩ : RState) a = ⟨none, p.stamp_size⟩ := by
  by_cases hcl : roiSum fb a.1 a.2 p.size = 0 ∧ (49 : ℚ) / 50 < wr wt a.1 a.2 p.size
  · simp only [refStep, if_pos hcl]
    split
    · rw [if_neg (by omega)]
    · rfl
  · simp only [refStep, if_neg hcl]

theorem refineReturn_eq {fb wt : Img} {W H : ℕ} {cfg : Cfg} {p : Placement}
    (hp : p.stamp_size = min (p.size - 2 * min_margin) cfg.stamp_size_max) :
    refineReturn fb wt W H cfg p = p := by
  simp only [refineReturn]
  split
  · rw [foldl_fixpoint _ fun a _ => refStep_fix hp a]
  · rfl

/-- Invariant of the primary scan: the recorded best always stores
`stamp_size = min(size - 2*min_margin, stamp_size_max)`. -/
def PInv (cfg : Cfg) (st : PState) : Prop :=
  ∀ p, st.best = some p → p.stamp_size = min (p.size - 2 * min_margin) cfg.stamp_size_max

theorem stepCand_pinv {fb wt : Img} {cfg : Cfg} {s y x : ℕ} {st : PState} (h : PInv cfg st) :
    PInv cfg (stepCand fb wt cfg s y x st) := by
  simp only [stepCand]
  split
  · split
    · split
      · intro p hp
        cases Option.some.inj hp
        rfl
      · split
        · intro p hp
          cases Option.some.inj hp
          rfl
        · exact h
    · exact h
  · exact h

theorem flatLoop_pinv {fb wt : Img} {cfg : Cfg} (l : List (ℕ × ℕ × ℕ)) :
    ∀ st : PState, PInv cfg st → PInv cfg (flatLoop fb wt cfg l st) := by
  induction l with
  | nil => exact fun st h => h
  | cons c cs ih =>
    intro st h
    simp only [flatLoop]
    split
    · exact h
    · exact ih _ (stepCand_pinv h)

theorem primState_pinv (fb wt : Img) (W H : ℕ) (cfg : Cfg) :
    PInv cfg (primState fb wt W H cfg) := by
  rw [primState_eq_flat]
  exact flatLoop_pinv _ _ fun p hp => by cases hp

/-- The refinement stage never changes the engine's outcome. -/
theorem searchCore_eq_noRefine (fb wt : Img) (W H : ℕ) (cfg : Cfg) :
    searchCore fb wt W H cfg = searchCoreNoRefine fb wt W H cfg := by
  rw [searchCore, searchCoreNoRefine]
  rcases h : (primState fb wt W H cfg).best with _ | p
  · rfl
  · exact refineReturn_eq (primState_pinv fb wt W H cfg p h)

/-! ### Validity of every emitted placement -/

/-- The spec's Placement invariant: the zone fits the page and the stamp
side lies between `stamp_size_min` and `stamp_size_max`. -/
def ValidP (W H : ℕ) (cfg : Cfg) (p : Placement) : Prop :=
  p.x + p.size ≤ W ∧ p.y + p.size ≤ H
    ∧ cfg.stamp_size_min ≤ p.stamp_size ∧ p.stamp_size ≤ cfg.stamp_size_max

def PValid (W H : ℕ) (cfg : Cfg) (st : PState) : Prop :=
  ∀ p, st.best = some p → ValidP W H cfg p

def TValid (W H : ℕ) (cfg : Cfg) (st : TState) : Prop :=
  ∀ p, st.best = some p → ValidP W H cfg p

def EValid (W H : ℕ) (cfg : Cfg) (st : EState) : Prop :=
  ∀ p, st.best = some p → ValidP W H cfg p

theorem stepCand_pvalid {fb wt : Img} {cfg : Cfg} {W H s y x : ℕ} {st : PState}
    (hy : y + s ≤ H) (hx : x + s ≤ W) (h : PValid W H cfg st) :
    PValid W H cfg (stepCand fb wt cfg s y x st) := by
  simp only [stepCand]
  split
  · split
    case isTrue hmin =>
      split
      · intro p hp
        cases Option.some.inj hp
        exact ⟨hx, hy, hmin, min_le_right _ _⟩
      · split
        · intro p hp
          cases Option.some.inj hp
          exact ⟨hx, hy, hmin, min_le_right _ _⟩
        · exact h
    case isFalse _ => exact h
  · exact h

theorem flatLoop_pvalid {fb wt : Img} {cfg : Cfg} {W H : ℕ} (l : List (ℕ × ℕ × ℕ))
    (hl : ∀ c ∈ l, c.2.1 + c.1 ≤ H ∧ c.2.2 + c.1 ≤ W) :
    ∀ st : PState, PValid W H cfg st → PValid W H cfg (flatLoop fb wt cfg l st) := by
  induction l with
  | nil => exact fun st h => h
  | cons c cs ih =>
    intro st h
    simp only [flatLoop]
    split
    · exact h
    · obtain ⟨h1, h2⟩ := hl c (List.mem_cons_self c cs)
      exact ih (fun d hd => hl d (List.mem_cons_of_mem c hd)) _ (stepCand_pvalid h1 h2 h)

theorem primState_pvalid (fb wt : Img) (W H : ℕ) (cfg : Cfg) :
    PValid W H cfg (primState fb wt W H cfg) := by
  rw [primState_eq_flat]
  refine flatLoop_pvalid _ (fun c hc => ?_) _ fun p hp => by cases hp
  obtain ⟨_, _, _, h1, h2⟩ := primCands_mem hc
  exact ⟨h1, h2⟩

theorem t1Cand_tvalid {fb wt : Img} {W H : ℕ} {cfg : Cfg} {s : ℕ} {st : TState} {b : ℤ × ℤ}
    (h : TValid W H cfg st) : TValid W H cfg (t1Cand fb wt W H cfg s st b) := by
  simp only [t1Cand]
  split
  case isFalse _ => exact h
  case isTrue hb =>
    split
    · split
      case isFalse _ => exact h
      case isTrue hmin =>
        split
        · intro p hp
          cases Option.some.inj hp
          refine ⟨?_, ?_, hmin, min_le_right _ _⟩
          · show (b.1 - (s : ℤ)).toNat + s ≤ W
            omega
          · show b.2.toNat + s ≤ H
            omega
        · split
          · intro p hp
            cases Option.some.inj hp
            refine ⟨?_, ?_, hmin, min_le_right _ _⟩
            · show (b.1 - (s : ℤ)).toNat + s ≤ W
              omega
            · show b.2.toNat + s ≤ H
              omega
          · exact h
    · exact h

theorem t1Corners_tvalid {fb wt : Img} {W H : ℕ} {cfg : Cfg} {s : ℕ} (bs : List (ℤ × ℤ)) :
    ∀ st : TState, TValid W H cfg st → TValid W H cfg (t1Corners fb wt W H cfg s bs st) := by
  induction bs with
  | nil => exact fun st h => h
  | cons b bs ih =>
    intro st h
    simp only [t1Corners]
    split
    · exact t1Cand_tvalid h
    · exact ih _ (t1Cand_tvalid h)

theorem t1Sizes_tvalid {fb wt : Img} {W H : ℕ} {cfg : Cfg} (ss : List ℕ) :
    ∀ st : TState, TValid W H cfg st → TValid W H cfg (t1Sizes fb wt W H cfg ss st) := by
  induction ss with
  | nil => exact fun st h => h
  | cons s ss ih =>
    intro st h
    simp only [t1Sizes]
    split
    · exact h
    · exact ih _ (t1Corners_tvalid _ _ h)

theorem t2Cand_tvalid {fb wt : Img} {W H : ℕ} {cfg : Cfg} {s : ℕ} {st : TState} {b : ℤ × ℤ}
    (h : TValid W H cfg st) : TValid W H cfg (t2Cand fb wt W H cfg s st b) := by
  simp only [t2Cand]
  split
  case isFalse _ => exact h
  case isTrue hb =>
    split
    · split
      · split
        case isFalse _ => exact h
        case isTrue hmin =>
          split
          · intro p hp
            cases Option.some.inj hp
            refine ⟨?_, ?_, hmin, min_le_right _ _⟩
            · show (b.1 - (s : ℤ)).toNat + s ≤ W
              omega
            · show b.2.toNat + s ≤ H
              omega
          · exact h
      · exact h
    · exact h

theorem t2Sizes_tvalid {fb wt : Img} {W H : ℕ} {cfg : Cfg} (ss : List ℕ) :
    ∀ st : TState, TValid W H cfg st → TValid W H cfg (t2Sizes fb wt W H cfg ss st) := by
  induction ss with
  | nil => exact fun st h => h
  | cons s ss ih =>
    intro st h
    simp only [t2Sizes]
    split
    · exact h
    · refine ih _ ?_
      have hfold : ∀ (bs : List (ℤ × ℤ)) (st' : TState), TValid W H cfg st' →
          TValid W H cfg (bs.foldl (t2Cand fb wt W H cfg s) st') := by
        intro bs
        induction bs with
        | nil => exact fun st' h' => h'
        | cons b bs ihb =>
          intro st' h'
          rw [List.foldl_cons]
          exact ihb _ (t2Cand_tvalid h')
      exact hfold _ _ h

theorem t3aCand_tvalid {fb wt : Img} {W H : ℕ} {cfg : Cfg} {s : ℕ} {st : TState} {b : ℤ × ℤ}
    (h : TValid W H cfg st) : TValid W H cfg (t3aCand fb wt W H cfg s st b) := by
  simp only [t3aCand]
  split
  case isFalse _ => exact h
  case isTrue hb =>
    split
    · split
      · split
        case isFalse _ => exact h
        case isTrue hmin =>
          split
          · intro p hp
            cases Option.some.inj hp
            refine ⟨?_, ?_, hmin, min_le_right _ _⟩
            · show (b.1 - (s : ℤ)).toNat + s ≤ W
              omega
            · show b.2.toNat + s ≤ H
              omega
          · exact h
      · exact h
    · exact h

theorem t3aState_tvalid (fb wt : Img) (W H : ℕ) (cfg : Cfg) :
    TValid W H cfg (t3aState fb wt W H cfg) := by
  rw [t3aState]
  have houter : ∀ (ss : List ℕ) (st : TState), TValid W H cfg st →
      TValid W H cfg (ss.foldl
        (fun st s => (emergency_positions_base W H).foldl (t3aCand fb wt W H cfg s) st) st) := by
    intro ss
    induction ss with
    | nil => exact fun st h => h
    | cons s ss ih =>
      intro st h
      rw [List.foldl_cons]
      refine ih _ ?_
      have hfold : ∀ (bs : List (ℤ × ℤ)) (st' : TState), TValid W H cfg st' →
          TValid W H cfg (bs.foldl (t3aCand fb wt W H cfg s) st') := by
        intro bs
        induction bs with
        | nil => exact fun st' h' => h'
        | cons b bs ihb =>
          intro st' h'
          rw [List.foldl_cons]
          exact ihb _ (t3aCand_tvalid h')
      exact hfold _ _ h
  exact houter _ _ fun p hp => by cases hp

theorem t3bCand_evalid {fb wt : Img} {W H : ℕ} {cfg : Cfg} {s : ℕ} {st : EState} {b : ℤ × ℤ}
    (h : EValid W H cfg st) : EValid W H cfg (t3bCand fb wt W H cfg s st b) := by
  simp only [t3bCand]
  split
  case isFalse _ => exact h
  case isTrue hb =>
    split
    · split
      · split
        case isFalse _ => exact h
        case isTrue hmin =>
          split
          · intro p hp
            cases Option.some.inj hp
            refine ⟨?_, ?_, hmin, min_le_right _ _⟩
            · show (b.1 - (s : ℤ)).toNat + s ≤ W
              omega
            · show b.2.toNat + s ≤ H
              omega
          · exact h
      · exact h
    · exact h

theorem t3bState_evalid (fb wt : Img) (W H : ℕ) (cfg : Cfg) :
    EValid W H cfg (t3bState fb wt W H cfg) := by
  rw [t3bState]
  have houter : ∀ (ss : List ℕ) (st : EState), EValid W H cfg st →
      EValid W H cfg (ss.foldl
        (fun st s => (emergency_positions_base W H).foldl (t3bCand fb wt W H cfg s) st) st) := by
    intro ss
    induction ss with
    | nil => exact fun st h => h
    | cons s ss ih =>
      intro st h
      rw [List.foldl_cons]
      refine ih _ ?_
      have hfold : ∀ (bs : List (ℤ × ℤ)) (st' : EState), EValid W H cfg st' →
          EValid W H cfg (bs.foldl (t3bCand fb wt W H cfg s) st') := by
        intro bs
        induction bs with
        | nil => exact fun st' h' => h'
        | cons b bs ihb =>
          intro st' h'
          rw [List.foldl_cons]
          exact ihb _ (t3bCand_evalid h')
      exact hfold _ _ h
  exact houter _ _ fun p hp => by cases hp

theorem forcedPlacement_valid {W H : ℕ} {cfg : Cfg} (hW : minZone cfg ≤ W)
    (hH : minZone cfg ≤ H) (hc : cfg.stamp_size_min ≤ cfg.stamp_size_max) :
    ValidP W H cfg (forcedPlacement W H cfg) := by
  simp only [forcedPlacement, ValidP]
  refine ⟨?_, ?_, le_rfl, hc⟩
  · split <;> omega
  · split <;> omega

theorem forcedPlacement_eval {W H : ℕ} {cfg : Cfg} (hW : minZone cfg + 20 ≤ W)
    (hH : minZone cfg + 20 ≤ H) :
    forcedPlacement W H cfg
      = ⟨W - minZone cfg - 20, 20, minZone cfg, cfg.stamp_size_min⟩ := by
  simp only [forcedPlacement]
  rw [if_neg (by omega), if_neg (by omega)]

/-! ### The tier cascade -/

/-- The engine's result is the first successful stage: the refined primary
result, one of the four fallback tiers, or the forced corner. -/
theorem searchCore_tiers (fb wt : Img) (W H : ℕ) (cfg : Cfg) :
    (∃ q, (primState fb wt W H cfg).best = some q
        ∧ searchCore fb wt W H cfg = refineReturn fb wt W H cfg q)
    ∨ ((primState fb wt W H cfg).best = none
        ∧ ((∃ p, (t1Sizes fb wt W H cfg (fallback_sizes cfg) ⟨none, 0, 0⟩).best = some p
              ∧ searchCore fb wt W H cfg = p)
          ∨ (∃ p, (t2Sizes fb wt W H cfg (fallback_sizes cfg) ⟨none, 0, 0⟩).best = some p
              ∧ searchCore fb wt W H cfg = p)
          ∨ (∃ p, (t3aState fb wt W H cfg).best = some p ∧ searchCore fb wt W H cfg = p)
          ∨ (∃ p, (t3bState fb wt W H cfg).best = some p ∧ searchCore fb wt W H cfg = p)
          ∨ searchCore fb wt W H cfg = forcedPlacement W H cfg)) := by
  rcases h0 : (primState fb wt W H cfg).best with _ | q
  · refine Or.inr ⟨rfl, ?_⟩
    rcases h1 : (t1Sizes fb wt W H cfg (fallback_sizes cfg) ⟨none, 0, 0⟩).best with _ | p1
    · rcases h2 : (t2Sizes fb wt W H cfg (fallback_sizes cfg) ⟨none, 0, 0⟩).best with _ | p2
      · rcases h3 : (t3aState fb wt W H cfg).best with _ | p3
        · rcases h4 : (t3bState fb wt W H cfg).best with _ | p4
          · refine Or.inr (Or.inr (Or.inr (Or.inr ?_)))
            simp only [searchCore, h0, h1, h2, h3, h4]
          · refine Or.inr (Or.inr (Or.inr (Or.inl ⟨p4, rfl, ?_⟩)))
            simp only [searchCore, h0, h1, h2, h3, h4]
        · refine Or.inr (Or.inr (Or.inl ⟨p3, rfl, ?_⟩))
          simp only [searchCore, h0, h1, h2, h3]
      · refine Or.inr (Or.inl ⟨p2, rfl, ?_⟩)
        simp only [searchCore, h0, h1, h2]
    · refine Or.inl ⟨p1, rfl, ?_⟩
      simp only [searchCore, h0, h1]
  · refine Or.inl ⟨q, rfl, ?_⟩
    simp only [searchCore, h0]

/-! ### Runs in which every candidate is rejected -/

theorem flatLoop_id {fb wt : Img} {cfg : Cfg} {l : List (ℕ × ℕ × ℕ)}
    (h : ∀ c ∈ l, ∀ st : PState, stepCand fb wt cfg c.1 c.2.1 c.2.2 st = st) :
    ∀ st : PState, flatLoop fb wt cfg l st = st := by
  induction l with
  | nil => exact fun st => rfl
  | cons c cs ih =>
    intro st
    simp only [flatLoop]
    split
    · rfl
    · rw [h c (List.mem_cons_self c cs) st]
      exact ih (fun d hd => h d (List.mem_cons_of_mem c hd)) st

theorem stepCand_id {fb wt : Img} {cfg : Cfg} {s y x : ℕ} (h : ¬cleanPrim fb wt cfg s y x)
    (st : PState) : stepCand fb wt cfg s y x st = st := by
  simp only [stepCand, if_neg h]

theorem t1Corners_id {fb wt : Img} {W H : ℕ} {cfg : Cfg} {s : ℕ} {bs : List (ℤ × ℤ)}
    (h : ∀ b ∈ bs, ∀ st : TState, t1Cand fb wt W H cfg s st b = st) :
    ∀ st : TState, t1Corners fb wt W H cfg s bs st = st := by
  induction bs with
  | nil => exact fun st => rfl
  | cons b bs ih =>
    intro st
    simp only [t1Corners, h b (List.mem_cons_self b bs) st]
    split
    · rfl
    · exact ih (fun d hd => h d (List.mem_cons_of_mem b hd)) st

theorem t1Sizes_id {fb wt : Img} {W H : ℕ} {cfg : Cfg} {ss : List ℕ}
    (h : ∀ s ∈ ss, ∀ b ∈ corner_positions_base W H, ∀ st : TState,
      t1Cand fb wt W H cfg s st b = st) :
    ∀ st : TState, t1Sizes fb wt W H cfg ss st = st := by
  induction ss with
  | nil => exact fun st => rfl
  | cons s ss ih =>
    intro st
    simp only [t1Sizes]
    split
    · rfl
    · rw [t1Corners_id (h s (List.mem_cons_self s ss)) st]
      exact ih (fun s' hs' => h s' (List.mem_cons_of_mem s hs')) st

theorem foldl_id {α β : Type} {f : β → α → β} {l : List α}
    (h : ∀ a ∈ l, ∀ st, f st a = st) : ∀ st : β, l.foldl f st = st := by
  induction l with
  | nil => exact fun st => rfl
  | cons a l ih =>
    intro st
    rw [List.foldl_cons, h a (List.mem_cons_self a l) st]
    exact ih (fun a' ha' => h a' (List.mem_cons_of_mem a ha')) st

theorem t2Sizes_id {fb wt : Img} {W H : ℕ} {cfg : Cfg} {ss : List ℕ}
    (h : ∀ s ∈ ss, ∀ b ∈ fallback_positions_base W H, ∀ st : TState,
      t2Cand fb wt W H cfg s st b = st) :
    ∀ st : TState, t2Sizes fb wt W H cfg ss st = st := by
  induction ss with
  | nil => exact fun st => rfl
  | cons s ss ih =>
    intro st
    simp only [t2Sizes]
    split
    · rfl
    · rw [foldl_id (fun b hb st' => h s (List.mem_cons_self s ss) b hb st') st]
      exact ih (fun s' hs' => h s' (List.mem_cons_of_mem s hs')) st

theorem t3aState_id {fb wt : Img} {W H : ℕ} {cfg : Cfg}
    (h : ∀ s ∈ search_sizes_to_try cfg, ∀ b ∈ emergency_positions_base W H, ∀ st : TState,
      t3aCand fb wt W H cfg s st b = st) :
    t3aState fb wt W H cfg = ⟨none, 0, 0⟩ := by
  rw [t3aState]
  exact foldl_id (fun s hs st => foldl_id (fun b hb st' => h s hs b hb st') st) _

theorem t3bState_id {fb wt : Img} {W H : ℕ} {cfg : Cfg}
    (h : ∀ s ∈ search_sizes_to_try cfg, ∀ b ∈ emergency_positions_base W H, ∀ st : EState,
      t3bCand fb wt W H cfg s st b = st) :
    t3bState fb wt W H cfg = ⟨none, 0, 0, 1⟩ := by
  rw [t3bState]
  exact foldl_id (fun s hs st => foldl_id (fun b hb st' => h s hs b hb st') st) _

/-- When every stage rejects every candidate, the engine returns the
forced corner placement. -/
theorem searchCore_forced {fb wt : Img} {W H : ℕ} {cfg : Cfg}
    (hprim : ∀ c ∈ primCands W H cfg, ∀ st : PState,
      stepCand fb wt cfg c.1 c.2.1 c.2.2 st = st)
    (h1 : ∀ s ∈ fallback_sizes cfg, ∀ b ∈ corner_positions_base W H, ∀ st : TState,
      t1Cand fb wt W H cfg s st b = st)
    (h2 : ∀ s ∈ fallback_sizes cfg, ∀ b ∈ fallback_positions_base W H, ∀ st : TState,
      t2Cand fb wt W H cfg s st b = st)
    (h3 : ∀ s ∈ search_sizes_to_try cfg, ∀ b ∈ emergency_positions_base W H, ∀ st : TState,
      t3aCand fb wt W H cfg s st b = st)
    (h4 : ∀ s ∈ search_sizes_to_try cfg, ∀ b ∈ emergency_positions_base W H, ∀ st : EState,
      t3bCand fb wt W H cfg s st b = st) :
    searchCore fb wt W H cfg = forcedPlacement W H cfg := by
  have hp : primState fb wt W H cfg = ⟨none, 0⟩ := by
    rw [primState_eq_flat]
    exact flatLoop_id hprim _
  have e1 : t1Sizes fb wt W H cfg (fallback_sizes cfg) (⟨none, 0, 0⟩ : TState)
      = ⟨none, 0, 0⟩ := t1Sizes_id h1 _
  have e2 : t2Sizes fb wt W H cfg (fallback_sizes cfg) (⟨none, 0, 0⟩ : TState)
      = ⟨none, 0, 0⟩ := t2Sizes_id h2 _
  have e3 := t3aState_id h3
  have e4 := t3bState_id h4
  simp only [searchCore, hp, e1, e2, e3, e4]

/-- On a page smaller than `smin_zone` in either axis no candidate of any
stage fits, and the engine falls through to the forced corner placement
(there is no InvalidRaster signal anywhere in the code). -/
theorem searchCore_unfit {fb wt : Img} {W H : ℕ} {cfg : Cfg}
    (hWH : W < minZone cfg ∨ H < minZone cfg) :
    searchCore fb wt W H cfg = forcedPlacement W H cfg := by
  refine searchCore_forced ?_ ?_ ?_ ?_ ?_
  · intro c hc st
    obtain ⟨hs, h1, h2, _, _⟩ := primCands_mem hc
    rcases hWH with hlt | hlt <;> exact absurd (search_sizes_mem hs) (by omega)
  · intro s hs b hb st
    have hm := fallback_sizes_mem hs
    simp only [t1Cand]
    rcases hWH with hlt | hlt <;>
      rw [if_neg (by rintro ⟨g1, g2, g3, g4⟩; omega)]
  · intro s hs b hb st
    have hm := fallback_sizes_mem hs
    simp only [t2Cand]
    rcases hWH with hlt | hlt <;>
      rw [if_neg (by rintro ⟨g1, g2, g3, g4⟩; omega)]
  · intro s hs b hb st
    have hm := search_sizes_mem hs
    simp only [t3aCand]
    rcases hWH with hlt | hlt <;>
      rw [if_neg (by rintro ⟨g1, g2, g3, g4⟩; omega)]
  · intro s hs b hb st
    have hm := search_sizes_mem hs
    simp only [t3bCand]
    rcases hWH with hlt | hlt <;>
      rw [if_neg (by rintro ⟨g1, g2, g3, g4⟩; omega)]

/-- `smin_zone` is at least 10 pixels. -/
theorem minZone_ge (cfg : Cfg) : 10 ≤ minZone cfg := by
  simp only [minZone, min_margin]
  omega

/-- When the forbidden mask covers the whole page, every stage rejects
every candidate (regardless of the whiteness map) and the engine returns
the forced corner placement. -/
theorem searchCore_fb255 {fb wt : Img} {W H : ℕ} {cfg : Cfg}
    (hfb : ConstOn W H fb 255) :
    searchCore fb wt W H cfg = forcedPlacement W H cfg := by
  refine searchCore_forced ?_ ?_ ?_ ?_ ?_
  · intro c hc st
    obtain ⟨hs, h1, h2, h3, h4⟩ := primCands_mem hc
    have hmz := search_sizes_mem hs
    have hz := minZone_ge cfg
    refine stepCand_id ?_ st
    rintro ⟨hsum, -⟩
    rw [roiSum_constOn hfb h3 h4] at hsum
    have hpos : (0 : ℕ) < 255 * (c.1 * c.1) := by
      have h5 : 0 < c.1 := by omega
      positivity
    omega
  · intro s hs b hb st
    have hmz := fallback_sizes_mem hs
    have hz := minZone_ge cfg
    simp only [t1Cand]
    by_cases hbd : 0 ≤ b.1 - (s : ℤ) ∧ 0 ≤ b.2
        ∧ b.1 - (s : ℤ) + (s : ℤ) ≤ (W : ℤ) ∧ b.2 + (s : ℤ) ≤ (H : ℤ)
    · rw [if_pos hbd]
      have hyH : b.2.toNat + s ≤ H := by omega
      have hxW : (b.1 - (s : ℤ)).toNat + s ≤ W := by omega
      have hroi : roiSum fb b.2.toNat (b.1 - (s : ℤ)).toNat s = 255 * (s * s) :=
        roiSum_constOn hfb hyH hxW
      rw [if_neg ?_]
      rintro ⟨hfr, -⟩
      rw [fr_of_roiSum255 hroi (by omega)] at hfr
      norm_num at hfr
    · rw [if_neg hbd]
  · intro s hs b hb st
    have hmz := fallback_sizes_mem hs
    have hz := minZone_ge cfg
    simp only [t2Cand]
    by_cases hbd : 0 ≤ b.1 - (s : ℤ) ∧ 0 ≤ b.2
        ∧ b.1 - (s : ℤ) + (s : ℤ) ≤ (W : ℤ) ∧ b.2 + (s : ℤ) ≤ (H : ℤ)
    · rw [if_pos hbd]
      have hyH : b.2.toNat + s ≤ H := by omega
      have hxW : (b.1 - (s : ℤ)).toNat + s ≤ W := by omega
      have hroi : roiSum fb b.2.toNat (b.1 - (s : ℤ)).toNat s = 255 * (s * s) :=
        roiSum_constOn hfb hyH hxW
      have hpos : (0 : ℕ) < 255 * (s * s) := by
        have h5 : 0 < s := by omega
        positivity
      rw [if_neg (by omega)]
    · rw [if_neg hbd]
  · intro s hs b hb st
    have hmz := search_sizes_mem hs
    have hz := minZone_ge cfg
    simp only [t3aCand]
    by_cases hbd : 0 ≤ b.1 - (s : ℤ) ∧ 0 ≤ b.2
        ∧ b.1 - (s : ℤ) + (s : ℤ) ≤ (W : ℤ) ∧ b.2 + (s : ℤ) ≤ (H : ℤ)
    · rw [if_pos hbd]
      have hyH : b.2.toNat + s ≤ H := by omega
      have hxW : (b.1 - (s : ℤ)).toNat + s ≤ W := by omega
      have hroi : roiSum fb b.2.toNat (b.1 - (s : ℤ)).toNat s = 255 * (s * s) :=
        roiSum_constOn hfb hyH hxW
      rw [if_neg ?_]
      rw [fr_of_roiSum255 hroi (by omega)]
      norm_num
    · rw [if_neg hbd]
  · intro s hs b hb st
    have hmz := search_sizes_mem hs
    have hz := minZone_ge cfg
    simp only [t3bCand]
    by_cases hbd : 0 ≤ b.1 - (s : ℤ) ∧ 0 ≤ b.2
        ∧ b.1 - (s : ℤ) + (s : ℤ) ≤ (W : ℤ) ∧ b.2 + (s : ℤ) ≤ (H : ℤ)
    · rw [if_pos hbd]
      have hyH : b.2.toNat + s ≤ H := by omega
      have hxW : (b.1 - (s : ℤ)).toNat + s ≤ W := by omega
      have hroi : roiSum fb b.2.toNat (b.1 - (s : ℤ)).toNat s = 255 * (s * s) :=
        roiSum_constOn hfb hyH hxW
      rw [if_neg ?_]
      rw [fr_of_roiSum255 hroi (by omega)]
      norm_num
    · rw [if_neg hbd]

/-! ### The mask pipeline on uniform rasters -/

/-- The uniformly white raster (every pixel 255). -/
def whiteRaster : Img := fun _ _ => 255

/-- The uniformly black raster (every pixel 0). -/
def blackRaster : Img := fun _ _ => 0

theorem constOn_cast {W H c c' : ℕ} {m : Img} (h : ConstOn W H m c) (e : c = c') :
    ConstOn W H m c' := e ▸ h

theorem constOn_ite {W H c : ℕ} {m m' : Img} {P : Prop} [Decidable P]
    (h : ConstOn W H m c) (h' : ConstOn W H m' c) : ConstOn W H (if P then m else m') c := by
  split <;> assumption

theorem binv_ite {m m' : Img} {P : Prop} [Decidable P] (h : Binv m) (h' : Binv m') :
    Binv (if P then m else m') := by
  split <;> assumption

theorem constOn_zeroImg {W H : ℕ} : ConstOn W H zeroImg 0 := fun _ _ _ => rfl

theorem constOn255_bOr_binv {W H : ℕ} {a b : Img} (ha : ConstOn W H a 255) (hb : Binv b) :
    ConstOn W H (bOr W H a b) 255 :=
  constOn_onPage fun y x hin => by
    rw [ha y x hin]
    rcases hb y x with h | h <;> rw [h] <;> decide

theorem foldl_inv {α β : Type} (P : β → Prop) {f : β → α → β} {l : List α}
    (hstep : ∀ st a, a ∈ l → P st → P (f st a)) : ∀ st, P st → P (l.foldl f st) := by
  induction l with
  | nil => exact fun st h => h
  | cons a l ih =>
    intro st h
    rw [List.foldl_cons]
    exact ih (fun st' a' ha' h' => hstep st' a' (List.mem_cons_of_mem a ha') h') _
      (hstep st a (List.mem_cons_self a l) h)

theorem binv_hlinesC {W H : ℕ} {image : Img} : Binv (hlinesC W H image) := by
  refine binv_dilateM (binv_ite (binv_bOr (binv_ite ?_ ?_) ?_) (binv_ite ?_ ?_))
  · exact binv_bOr (binv_ite (binv_bOr binv_zeroImg (binv_openM binv_threshBinInv))
      binv_zeroImg) (binv_openM binv_threshBinInv)
  · exact binv_ite (binv_bOr binv_zeroImg (binv_openM binv_threshBinInv)) binv_zeroImg
  · exact binv_openM binv_threshBinInv
  · exact binv_bOr (binv_ite (binv_bOr binv_zeroImg (binv_openM binv_threshBinInv))
      binv_zeroImg) (binv_openM binv_threshBinInv)
  · exact binv_ite (binv_bOr binv_zeroImg (binv_openM binv_threshBinInv)) binv_zeroImg

theorem binv_vlinesC {W H : ℕ} {image : Img} : Binv (vlinesC W H image) := by
  refine binv_dilateM (binv_ite (binv_bOr (binv_ite ?_ ?_) ?_) (binv_ite ?_ ?_))
  · exact binv_bOr binv_zeroImg (binv_openM binv_threshBinInv)
  · exact binv_zeroImg
  · exact binv_openM binv_threshBinInv
  · exact binv_bOr binv_zeroImg (binv_openM binv_threshBinInv)
  · exact binv_zeroImg

/-- On the all-black raster the text detector marks the entire page. -/
theorem textMaskC_black {W H : ℕ} : ConstOn W H (textMaskC W H blackRaster) 255 := by
  have hbl : ConstOn W H blackRaster 0 := fun _ _ _ => rfl
  have hbin : ConstOn W H (threshBin W H 220 blackRaster) 0 :=
    constOn_cast (constOn_threshBin hbl) (by norm_num)
  have hinv : ConstOn W H (invert255 W H (threshBin W H 220 blackRaster)) 255 :=
    constOn_cast (constOn_invert255 hbin) (by norm_num)
  have h1 := @constOn_openM W H 30 1 _ _ hinv le_rfl (by norm_num) (by norm_num)
  have h2 := @constOn_openM W H 1 15 _ _ hinv le_rfl (by norm_num) (by norm_num)
  have h3 := @constOn_closeM W H 3 3 _ _ hinv le_rfl (by norm_num) (by norm_num)
  have h12 : ConstOn W H (bOr W H (openM W H 30 1 (invert255 W H (threshBin W H 220 blackRaster)))
      (openM W H 1 15 (invert255 W H (threshBin W H 220 blackRaster)))) 255 :=
    constOn_cast (constOn_bOr h1 h2) (by decide)
  have h123 : ConstOn W H (bOr W H (bOr W H
      (openM W H 30 1 (invert255 W H (threshBin W H 220 blackRaster)))
      (openM W H 1 15 (invert255 W H (threshBin W H 220 blackRaster))))
      (closeM W H 3 3 (invert255 W H (threshBin W H 220 blackRaster)))) 255 :=
    constOn_cast (constOn_bOr h12 h3) (by decide)
  simp only [textMaskC]
  exact constOn_dilateM h123 (by norm_num) (by norm_num)

/-- On the all-white raster the text detector marks nothing. -/
theorem textMaskC_white {W H : ℕ} : ConstOn W H (textMaskC W H whiteRaster) 0 := by
  have hwh : ConstOn W H whiteRaster 255 := fun _ _ _ => rfl
  have hbin : ConstOn W H (threshBin W H 220 whiteRaster) 255 :=
    constOn_cast (constOn_threshBin hwh) (by norm_num)
  have hinv : ConstOn W H (invert255 W H (threshBin W H 220 whiteRaster)) 0 :=
    constOn_cast (constOn_invert255 hbin) (by norm_num)
  have h1 := @constOn_openM W H 30 1 _ _ hinv (by norm_num) (by norm_num) (by norm_num)
  have h2 := @constOn_openM W H 1 15 _ _ hinv (by norm_num) (by norm_num) (by norm_num)
  have h3 := @constOn_closeM W H 3 3 _ _ hinv (by norm_num) (by norm_num) (by norm_num)
  have h12 : ConstOn W H (bOr W H (openM W H 30 1 (invert255 W H (threshBin W H 220 whiteRaster)))
      (openM W H 1 15 (invert255 W H (threshBin W H 220 whiteRaster)))) 0 :=
    constOn_cast (constOn_bOr h1 h2) (by decide)
  have h123 : ConstOn W H (bOr W H (bOr W H
      (openM W H 30 1 (invert255 W H (threshBin W H 220 whiteRaster)))
      (openM W H 1 15 (invert255 W H (threshBin W H 220 whiteRaster))))
      (closeM W H 3 3 (invert255 W H (threshBin W H 220 whiteRaster)))) 0 :=
    constOn_cast (constOn_bOr h12 h3) (by decide)
  simp only [textMaskC]
  exact constOn_dilateM h123 (by norm_num) (by norm_num)

/-- On the all-white raster the horizontal-line detector marks nothing. -/
theorem hlinesC_white {W H : ℕ} : ConstOn W H (hlinesC W H whiteRaster) 0 := by
  have hwh : ConstOn W H whiteRaster 255 := fun _ _ _ => rfl
  have hlb : ConstOn W H (threshBinInv W H 200 whiteRaster) 0 :=
    constOn_cast (constOn_threshBinInv hwh) (by norm_num)
  have hop : ∀ kw kh : ℕ, 0 < kw → 0 < kh →
      ConstOn W H (openM W H kw kh (threshBinInv W H 200 whiteRaster)) 0 :=
    fun kw kh hkw hkh => constOn_openM hlb (by norm_num) hkw hkh
  have ha1 : ConstOn W H (if 100 < W then
      bOr W H zeroImg (openM W H (max 100 (W / 3)) 1 (threshBinInv W H 200 whiteRaster))
      else zeroImg) 0 := by
    refine constOn_ite ?_ constOn_zeroImg
    exact constOn_cast (constOn_bOr constOn_zeroImg (hop _ _ (by omega) (by norm_num)))
      (by decide)
  have ha2 : ConstOn W H (if 60 < W then
      bOr W H (if 100 < W then
        bOr W H zeroImg (openM W H (max 100 (W / 3)) 1 (threshBinInv W H 200 whiteRaster))
        else zeroImg)
        (openM W H (max 60 (W / 5)) 1 (threshBinInv W H 200 whiteRaster))
      else (if 100 < W then
        bOr W H zeroImg (openM W H (max 100 (W / 3)) 1 (threshBinInv W H 200 whiteRaster))
        else zeroImg)) 0 := by
    refine constOn_ite ?_ ha1
    exact constOn_cast (constOn_bOr ha1 (hop _ _ (by omega) (by norm_num))) (by decide)
  have ha3 : ConstOn W H (if 30 < W then
      bOr W H (if 60 < W then
        bOr W H (if 100 < W then
          bOr W H zeroImg (openM W H (max 100 (W / 3)) 1 (threshBinInv W H 200 whiteRaster))
          else zeroImg)
          (openM W H (max 60 (W / 5)) 1 (threshBinInv W H 200 whiteRaster))
        else (if 100 < W then
          bOr W H zeroImg (openM W H (max 100 (W / 3)) 1 (threshBinInv W H 200 whiteRaster))
          else zeroImg))
        (openM W H (max 30 (W / 10)) 1 (threshBinInv W H 200 whiteRaster))
      else (if 60 < W then
        bOr W H (if 100 < W then
          bOr W H zeroImg (openM W H (max 100 (W / 3)) 1 (threshBinInv W H 200 whiteRaster))
          else zeroImg)
          (openM W H (max 60 (W / 5)) 1 (threshBinInv W H 200 whiteRaster))
        else (if 100 < W then
          bOr W H zeroImg (openM W H (max 100 (W / 3)) 1 (threshBinInv W H 200 whiteRaster))
          else zeroImg))) 0 := by
    refine constOn_ite ?_ ha2
    exact constOn_cast (constOn_bOr ha2 (hop _ _ (by omega) (by norm_num))) (by decide)
  simp only [hlinesC]
  exact constOn_dilateM ha3 (by norm_num) (by norm_num)

/-- On the all-white raster the vertical-line detector marks nothing. -/
theorem vlinesC_white {W H : ℕ} : ConstOn W H (vlinesC W H whiteRaster) 0 := by
  have hwh : ConstOn W H whiteRaster 255 := fun _ _ _ => rfl
  have hlb : ConstOn W H (threshBinInv W H 200 whiteRaster) 0 :=
    constOn_cast (constOn_threshBinInv hwh) (by norm_num)
  have hop : ∀ kw kh : ℕ, 0 < kw → 0 < kh →
      ConstOn W H (openM W H kw kh (threshBinInv W H 200 whiteRaster)) 0 :=
    fun kw kh hkw hkh => constOn_openM hlb (by norm_num) hkw hkh
  have ha1 : ConstOn W H (if 100 < H then
      bOr W H zeroImg (openM W H 1 (max 100 (H / 3)) (threshBinInv W H 200 whiteRaster))
      else zeroImg) 0 := by
    refine constOn_ite ?_ constOn_zeroImg
    exact constOn_cast (constOn_bOr constOn_zeroImg (hop _ _ (by norm_num) (by omega)))
      (by decide)
  have ha2 : ConstOn W H (if 60 < H then
      bOr W H (if 100 < H then
        bOr W H zeroImg (openM W H 1 (max 100 (H / 3)) (threshBinInv W H 200 whiteRaster))
        else zeroImg)
        (openM W H 1 (max 60 (H / 5)) (threshBinInv W H 200 whiteRaster))
      else (if 100 < H then
        bOr W H zeroImg (openM W H 1 (max 100 (H / 3)) (threshBinInv W H 200 whiteRaster))
        else zeroImg)) 0 := by
    refine constOn_ite ?_ ha1
    exact constOn_cast (constOn_bOr ha1 (hop _ _ (by norm_num) (by omega))) (by decide)
  simp only [vlinesC]
  exact constOn_dilateM ha2 (by norm_num) (by norm_num)

/-- On the all-black raster the pre-detector forbidden mask covers the
page. -/
theorem preMaskC_black {W H : ℕ} : ConstOn W H (preMaskC W H blackRaster) 255 := by
  rw [preMaskC]
  have h1 : ConstOn W H (bOr W H zeroImg (textMaskC W H blackRaster)) 255 :=
    constOn_cast (constOn_bOr constOn_zeroImg textMaskC_black) (by decide)
  exact constOn255_bOr_binv (constOn255_bOr_binv h1 binv_hlinesC) binv_vlinesC

/-- On the all-white raster the pre-detector forbidden mask is empty. -/
theorem preMaskC_white {W H : ℕ} : ConstOn W H (preMaskC W H whiteRaster) 0 := by
  rw [preMaskC]
  have h1 : ConstOn W H (bOr W H zeroImg (textMaskC W H whiteRaster)) 0 :=
    constOn_cast (constOn_bOr constOn_zeroImg textMaskC_white) (by decide)
  have h2 : ConstOn W H (bOr W H (bOr W H zeroImg (textMaskC W H whiteRaster))
      (hlinesC W H whiteRaster)) 0 :=
    constOn_cast (constOn_bOr h1 hlinesC_white) (by decide)
  exact constOn_cast (constOn_bOr h2 vlinesC_white) (by decide)

/-- The image-detector fold can only add to the forbidden mask: a fully
covered forbidden mask stays fully covered. -/
theorem imageStageC_snd_const255 {be : ContourBackend} {W H : ℕ} {image fb : Img}
    (hfb : ConstOn W H fb 255) : ConstOn W H (imageStageC be W H image fb).2 255 := by
  rw [imageStageC]
  refine foldl_inv (fun st : Img × Img => ConstOn W H st.2 255) (fun st c _ h => ?_)
    _ hfb
  simp only [imageContourStepC]
  split
  · exact constOn255_bOr_binv h
      (@binv_dilateM W H 30 30 _ binv_fillC)
  · exact h

/-- The QR-detector fold can only add to the forbidden mask. -/
theorem qrStageC_snd_const255 {be : ContourBackend} {W H : ℕ} {image fb : Img}
    (hfb : ConstOn W H fb 255) : ConstOn W H (qrStageC be W H image fb).2 255 := by
  rw [qrStageC]
  refine foldl_inv (fun st : Img × Img => ConstOn W H st.2 255) (fun st c _ h => ?_)
    _ hfb
  simp only [qrContourStepC]
  repeat' split
  all_goals
    first
      | exact h
      | exact constOn255_bOr_binv h
          (@binv_dilateM W H 40 40 _ binv_fillC)

/-- On the all-black raster the forbidden mask covers the entire page. -/
theorem forbiddenC_black {be : ContourBackend} {W H : ℕ} :
    ConstOn W H (forbiddenC be W H blackRaster) 255 := by
  rw [forbiddenC, qrPairC, imagePairC]
  exact qrStageC_snd_const255 (imageStageC_snd_const255 preMaskC_black)

/-- On the all-white raster (with page at least 3×3) the image detector's
high-frequency map is the zero image. -/
theorem imageDetection_white {W H : ℕ} (hW : 3 ≤ W) (hH : 3 ≤ H) :
    threshBin W H 30 (lapAbsU8 W H (gauss5 W H whiteRaster)) = zeroImg := by
  have hwh : ConstOn W H whiteRaster 255 := fun _ _ _ => rfl
  have hg : ConstOn W H (gauss5 W H whiteRaster) 255 := constOn_gauss5 hwh hW hH
  have hl : ConstOn W H (lapAbsU8 W H (gauss5 W H whiteRaster)) 0 :=
    constOn_lapAbsU8 hg hW hH
  rw [← pageConst_zero (W := W) (H := H)]
  refine onPage_eq_pageConst fun y x hb => ?_
  rw [hl y x hb]
  norm_num

/-- On the all-white raster the QR detector's binary input is the fully
set page. -/
theorem qrBinary_white {W H : ℕ} :
    threshBin W H 128 whiteRaster = pageConst W H 255 :=
  onPage_eq_pageConst fun _ _ _ => rfl

/-- On the all-white raster, provided the contour extraction finds no
contours in the zero image and only the whole-page contour (of area
outside (1000, 50000)) in the fully set image, the forbidden mask is
empty. -/
theorem forbiddenC_white {be : ContourBackend} {W H : ℕ} (hW : 3 ≤ W) (hH : 3 ≤ H)
    (hb1 : be.external W H zeroImg = [])
    (hb2 : ∀ c ∈ be.tree W H (pageConst W H 255), ¬(1000 < c.area ∧ c.area < 50000)) :
    ConstOn W H (forbiddenC be W H whiteRaster) 0 := by
  have him : imagePairC be W H whiteRaster = (zeroImg, preMaskC W H whiteRaster) := by
    rw [imagePairC, imageStageC, imageDetection_white hW hH, hb1]
    rfl
  rw [forbiddenC, qrPairC, him, qrStageC, qrBinary_white]
  rw [foldl_id (fun c hc st => ?_) _]
  · exact preMaskC_white
  · simp only [qrContourStepC, if_neg (hb2 c hc)]

/-- The whiteness map of the all-white raster is fully set. -/
theorem whiteC_white {W H : ℕ} : ConstOn W H (whiteC W H whiteRaster) 255 :=
  constOn_cast (constOn_threshBin (fun _ _ _ => rfl)) (by norm_num)

/-- Both adaptive whiteness thresholds are below 1. -/
theorem thetaOf_lt_one (cfg : Cfg) (s : ℕ) : thetaOf cfg s < 1 := by
  rw [thetaOf]
  split <;> norm_num

/-- The head of the primary candidate list is `(s₀, 0, 0)` whenever the
page strictly exceeds `s₀ = max(stamp_size_max + 2*min_margin, 410)`. -/
theorem primCands_head {W H : ℕ} {cfg : Cfg} (hc : cfg.stamp_size_min ≤ cfg.stamp_size_max)
    (hW : max (cfg.stamp_size_max + 2 * min_margin) 410 < W)
    (hH : max (cfg.stamp_size_max + 2 * min_margin) 410 < H) :
    ∃ t, primCands W H cfg
      = (max (cfg.stamp_size_max + 2 * min_margin) 410, 0, 0) :: t := by
  obtain ⟨ts, hts⟩ := search_sizes_cons hc
  obtain ⟨ty, hty⟩ :=
    @pyRange_cons (H - max (cfg.stamp_size_max + 2 * min_margin) 410)
      (stepFor cfg (max (cfg.stamp_size_max + 2 * min_margin) 410))
      (by omega) (stepFor_pos cfg _)
  obtain ⟨tx, htx⟩ :=
    @pyRange_cons (W - max (cfg.stamp_size_max + 2 * min_margin) 410)
      (stepFor cfg (max (cfg.stamp_size_max + 2 * min_margin) 410))
      (by omega) (stepFor_pos cfg _)
  rw [primCands, hts, List.flatMap_cons, if_neg (by omega), hty, htx, List.flatMap_cons,
    List.map_cons, List.cons_append, List.cons_append]
  exact ⟨_, rfl⟩

/-- The first scan candidate that is clean with a maximal admissible stamp
determines the engine's result: the scan stops there, and the refinement
cannot improve it. -/
theorem searchCore_first_max {fb wt : Img} {W H : ℕ} {cfg : Cfg}
    (l1 l2 : List (ℕ × ℕ × ℕ)) (c : ℕ × ℕ × ℕ)
    (hmax : 0 < cfg.stamp_size_max)
    (hflat : primCands W H cfg = l1 ++ c :: l2)
    (hbefore : ∀ d ∈ l1, ¬acceptMax fb wt cfg d.1 d.2.1 d.2.2)
    (hacc : acceptMax fb wt cfg c.1 c.2.1 c.2.2) :
    searchCore fb wt W H cfg = ⟨c.2.2, c.2.1, c.1, cfg.stamp_size_max⟩
      ∧ (primState fb wt W H cfg).best
          = some ⟨c.2.2, c.2.1, c.1, cfg.stamp_size_max⟩ := by
  have hps : primState fb wt W H cfg
      = ⟨some ⟨c.2.2, c.2.1, c.1, cfg.stamp_size_max⟩, cfg.stamp_size_max⟩ := by
    rw [primState_eq_flat, hflat]
    exact flatLoop_first_max l1 c l2 _ hmax hbefore hacc
  refine ⟨?_, by rw [hps]⟩
  simp only [searchCore, hps]
  refine refineReturn_eq ?_
  show cfg.stamp_size_max = min (c.1 - 2 * min_margin) cfg.stamp_size_max
  have h2 := hacc.2.2
  omega

/-- On masks that are empty (forbidden) and fully set (whiteness), the
very first candidate `(s₀, 0, 0)` is clean and maximal, so the primary
tier returns `{x: 0, y: 0, zone: s₀, stamp: stamp_size_max}`. -/
theorem searchCore_allwhite_masks {fb wt : Img} {W H : ℕ} {cfg : Cfg}
    (hfb : ConstOn W H fb 0) (hwt : ConstOn W H wt 255)
    (hmax : 0 < cfg.stamp_size_max) (hc : cfg.stamp_size_min ≤ cfg.stamp_size_max)
    (hW : max (cfg.stamp_size_max + 2 * min_margin) 410 < W)
    (hH : max (cfg.stamp_size_max + 2 * min_margin) 410 < H) :
    searchCore fb wt W H cfg
        = ⟨0, 0, max (cfg.stamp_size_max + 2 * min_margin) 410, cfg.stamp_size_max⟩
      ∧ (primState fb wt W H cfg).best
          = some ⟨0, 0, max (cfg.stamp_size_max + 2 * min_margin) 410,
              cfg.stamp_size_max⟩ := by
  obtain ⟨t, ht⟩ := primCands_head hc hW hH
  have hs0 : 0 < max (cfg.stamp_size_max + 2 * min_margin) 410 := by omega
  have hacc : acceptMax fb wt cfg (max (cfg.stamp_size_max + 2 * min_margin) 410) 0 0 := by
    refine ⟨⟨?_, ?_⟩, ?_, ?_⟩
    · rw [roiSum_constOn hfb (by omega) (by omega)]
      exact Nat.zero_mul _
    · rw [wr_of_roiSum (roiSum_constOn hwt (by omega) (by omega)) hs0]
      exact thetaOf_lt_one cfg _
    · simp only [min_margin]
      omega
    · simp only [min_margin]
      omega
  exact searchCore_first_max [] t (max (cfg.stamp_size_max + 2 * min_margin) 410, 0, 0)
    hmax (by rw [ht, List.nil_append]) (by simp) hacc

/-! ### The result depends only on the on-page raster values -/

/-- Two rasters agree at every on-page position. -/
def EqOn (W H : ℕ) (a b : Img) : Prop := ∀ y x, inB W H y x → a y x = b y x

theorem onPage_congr {W H : ℕ} {f g : ℤ → ℤ → ℕ}
    (h : ∀ y x, inB W H y x → f y x = g y x) : onPage W H f = onPage W H g := by
  funext y x
  simp only [onPage]
  split
  · exact h y x (by assumption)
  · rfl

theorem threshBin_congr {W H t : ℕ} {m m' : Img} (h : EqOn W H m m') :
    threshBin W H t m = threshBin W H t m' :=
  onPage_congr fun y x hb => by rw [h y x hb]

theorem threshBinInv_congr {W H t : ℕ} {m m' : Img} (h : EqOn W H m m') :
    threshBinInv W H t m = threshBinInv W H t m' :=
  onPage_congr fun y x hb => by rw [h y x hb]

theorem gauss5_congr {W H : ℕ} {m m' : Img} (hW : 3 ≤ W) (hH : 3 ≤ H)
    (h : EqOn W H m m') : gauss5 W H m = gauss5 W H m' := by
  refine onPage_congr fun y x hb => ?_
  obtain ⟨hy0, hyH, hx0, hxW⟩ := hb
  refine congrArg (fun v => (v + 128) / 256) (Finset.sum_congr rfl fun p hp => ?_)
  simp only [winIdx, Finset.mem_product, Finset.mem_range] at hp
  have hry := reflect_inB (i := y + (p.1 : ℤ) - 2) hH (by omega) (by omega)
  have hrx := reflect_inB (i := x + (p.2 : ℤ) - 2) hW (by omega) (by omega)
  rw [h _ _ ⟨hry.1, hry.2, hrx.1, hrx.2⟩]

theorem rectCells_congr {W H : ℕ} {m m' : Img} (h : EqOn W H m m') (ry rx : ℤ)
    (rh rw : ℕ) :
    rectSum W H m ry rx rh rw = rectSum W H m' ry rx rh rw
      ∧ rectSumSq W H m ry rx rh rw = rectSumSq W H m' ry rx rh rw := by
  constructor
  · refine Finset.sum_congr rfl fun i _ => Finset.sum_congr rfl fun j _ => ?_
    split
    · rw [h _ _ (by assumption)]
    · rfl
  · refine Finset.sum_congr rfl fun i _ => Finset.sum_congr rfl fun j _ => ?_
    split
    · rw [h _ _ (by assumption)]
    · rfl

theorem stdGT40_congr {W H : ℕ} {m m' : Img} (h : EqOn W H m m') (ry rx : ℤ)
    (rh rw : ℕ) : stdGT40 W H m ry rx rh rw ↔ stdGT40 W H m' ry rx rh rw := by
  obtain ⟨e1, e2⟩ := rectCells_congr h ry rx rh rw
  rw [stdGT40, stdGT40, e1, e2]

theorem qrContourStep_congr {W H : ℕ} {m m' : Img} (h : EqOn W H m m')
    (st : Img × Img × KCache) (c : Contour) :
    qrContourStep W H m st c = qrContourStep W H m' st c := by
  simp only [qrContourStep]
  refine if_congr Iff.rfl (if_congr Iff.rfl (if_congr Iff.rfl
    (if_congr (stdGT40_congr h c.ry c.rx c.rh c.rw) rfl rfl) rfl) rfl) rfl

theorem foldl_ext {α β : Type} {f g : β → α → β} (h : ∀ st a, f st a = g st a) :
    ∀ (l : List α) (st : β), l.foldl f st = l.foldl g st := by
  intro l
  induction l with
  | nil => exact fun st => rfl
  | cons a l ih =>
    intro st
    rw [List.foldl_cons, List.foldl_cons, h st a]
    exact ih _

theorem textStage_congr {W H : ℕ} {m m' : Img} {kc : KCache} (h : EqOn W H m m') :
    textStage W H m kc = textStage W H m' kc := by
  simp only [textStage]
  rw [threshBin_congr h]

theorem hlinesStage_congr {W H : ℕ} {m m' : Img} {kc : KCache} (h : EqOn W H m m') :
    hlinesStage W H m kc = hlinesStage W H m' kc := by
  simp only [hlinesStage]
  rw [threshBinInv_congr h]

theorem vlinesStage_congr {W H : ℕ} {m m' : Img} {kc : KCache} (h : EqOn W H m m') :
    vlinesStage W H m kc = vlinesStage W H m' kc := by
  simp only [vlinesStage]
  rw [threshBinInv_congr h]

theorem imageStage_congr {be : ContourBackend} {W H : ℕ} {m m' : Img} {fb : Img}
    {kc : KCache} (hW : 3 ≤ W) (hH : 3 ≤ H) (h : EqOn W H m m') :
    imageStage be W H m fb kc = imageStage be W H m' fb kc := by
  simp only [imageStage]
  rw [gauss5_congr hW hH h]

theorem qrStage_congr {be : ContourBackend} {W H : ℕ} {m m' : Img} {fb : Img}
    {kc : KCache} (h : EqOn W H m m') :
    qrStage be W H m fb kc = qrStage be W H m' fb kc := by
  simp only [qrStage]
  rw [threshBin_congr h, foldl_ext (qrContourStep_congr h)]

/-! ### Claim-level helpers -/

/-- The placement in the returned record is the search engine run on the
returned forbidden mask and the whiteness map of the input raster. -/
theorem find_coords_def (be : ContourBackend) (W H : ℕ) (image : Img) (cfg : Cfg)
    (kc : KCache) :
    (find_whitest_space be W H image cfg kc).coords
      = searchCore (find_whitest_space be W H image cfg kc).forbidden_mask
          (whiteC W H image) W H cfg := rfl

/-- A contour extractor that reports no contours at all (used to
instantiate concrete runs). -/
def trivialBackend : ContourBackend := ⟨fun _ _ _ => [], fun _ _ _ => []⟩

/-- Every placement the engine can emit is inside the page and carries a
stamp side between the configured minimum and maximum. -/
theorem searchCore_validP (fb wt : Img) (W H : ℕ) (cfg : Cfg)
    (hW : minZone cfg ≤ W) (hH : minZone cfg ≤ H)
    (hc : cfg.stamp_size_min ≤ cfg.stamp_size_max) :
    ValidP W H cfg (searchCore fb wt W H cfg) := by
  have h0 : TValid W H cfg ⟨none, 0, 0⟩ := fun q hq => Option.noConfusion hq
  rcases searchCore_tiers fb wt W H cfg with ⟨q, hq, he⟩ |
    ⟨-, ⟨p, hp, he⟩ | ⟨p, hp, he⟩ | ⟨p, hp, he⟩ | ⟨p, hp, he⟩ | he⟩
  · rw [he, refineReturn_eq (primState_pinv fb wt W H cfg q hq)]
    exact primState_pvalid fb wt W H cfg q hq
  · rw [he]
    exact t1Sizes_tvalid (fallback_sizes cfg) _ h0 p hp
  · rw [he]
    exact t2Sizes_tvalid (fallback_sizes cfg) _ h0 p hp
  · rw [he]
    exact t3aState_tvalid fb wt W H cfg p hp
  · rw [he]
    exact t3bState_evalid fb wt W H cfg p hp
  · rw [he]
    exact forcedPlacement_valid hW hH hc

/-- The emitted placement only depends on the raster's on-page pixels. -/
theorem find_congr (be : ContourBackend) {W H : ℕ} (image img' : Img) (cfg : Cfg)
    (kc : KCache) (hW : 3 ≤ W) (hH : 3 ≤ H) (heq : EqOn W H image img') :
    (find_whitest_space be W H image cfg kc).coords
      = (find_whitest_space be W H img' cfg kc).coords := by
  simp only [find_whitest_space]
  rw [textStage_congr heq, hlinesStage_congr heq, vlinesStage_congr heq,
    imageStage_congr hW hH heq, qrStage_congr heq, threshBin_congr heq]

/-- On the all-black raster the search is forced into tier T4. -/
theorem find_black (be : ContourBackend) (W H : ℕ) (cfg : Cfg) (kc : KCache)
    (hkc : WFK kc) (hW : minZone cfg + 20 ≤ W) (hH : minZone cfg + 20 ≤ H) :
    (find_whitest_space be W H blackRaster cfg kc).coords
      = ⟨W - minZone cfg - 20, 20, minZone cfg, cfg.stamp_size_min⟩ := by
  rw [(find_masks_eq hkc).1, searchCore_fb255 forbiddenC_black, forcedPlacement_eval hW hH]

/-- A whiteness mask that is zero on its two leftmost columns and 255
elsewhere (inside its row): the whiteness ratio of the `100 × 100` square
at the origin is exactly `0.98`. -/
def wtBand : Img := fun _ x => if x < 2 then 0 else 255

theorem roiSum_wtBand : roiSum wtBand 0 0 100 = 2499000 := by
  have hrow : ∀ i ∈ Finset.range 100,
      (∑ j ∈ Finset.range 100, wtBand (((0 : ℕ) : ℤ) + (i : ℤ)) (((0 : ℕ) : ℤ) + (j : ℤ)))
        = 24990 := by
    intro i _
    simp only [wtBand]
    decide
  rw [roiSum, Finset.sum_congr rfl hrow, Finset.sum_const, Finset.card_range]
  norm_num

theorem wr_wtBand : wr wtBand 0 0 100 = 49 / 50 := by
  rw [wr, roiSum_wtBand]
  norm_num

/-- A raster equal to white on a `3 × 3` page and garbage outside it. -/
def offPage7 : Img := fun y x => if inB 3 3 y x then 255 else 7

/-! ### The ten claims -/

/-- Claim C1: for every raster and configuration (in particular whenever
both page dimensions are at least `smin_zone` and the configuration is
valid) `find_whitest_space` returns a placement, and that placement is the
first successful stage of the cascade: the refined primary scan, one of
the fallback tiers T1, T2, T3a, T3b, or the deterministic forced corner
T4; no input makes it signal "no location", return nothing, or fail. -/
theorem C1_total_cascade (be : ContourBackend) (W H : ℕ) (image : Img) (cfg : Cfg)
    (kc : KCache) (_hW : minZone cfg ≤ W) (_hH : minZone cfg ≤ H)
    (_hc : cfg.stamp_size_min ≤ cfg.stamp_size_max) :
    ∃ p : Placement,
      (find_whitest_space be W H image cfg kc).coords = p
      ∧ ((∃ q, (primState (find_whitest_space be W H image cfg kc).forbidden_mask
                  (whiteC W H image) W H cfg).best = some q
            ∧ p = refineReturn (find_whitest_space be W H image cfg kc).forbidden_mask
                  (whiteC W H image) W H cfg q)
        ∨ (∃ q, (t1Sizes (find_whitest_space be W H image cfg kc).forbidden_mask
                  (whiteC W H image) W H cfg (fallback_sizes cfg) ⟨none, 0, 0⟩).best = some q
            ∧ p = q)
        ∨ (∃ q, (t2Sizes (find_whitest_space be W H image cfg kc).forbidden_mask
                  (whiteC W H image) W H cfg (fallback_sizes cfg) ⟨none, 0, 0⟩).best = some q
            ∧ p = q)
        ∨ (∃ q, (t3aState (find_whitest_space be W H image cfg kc).forbidden_mask
                  (whiteC W H image) W H cfg).best = some q ∧ p = q)
        ∨ (∃ q, (t3bState (find_whitest_space be W H image cfg kc).forbidden_mask
                  (whiteC W H image) W H cfg).best = some q ∧ p = q)
        ∨ p = forcedPlacement W H cfg) := by
  refine ⟨searchCore (find_whitest_space be W H image cfg kc).forbidden_mask
    (whiteC W H image) W H cfg, find_coords_def be W H image cfg kc, ?_⟩
  rcases searchCore_tiers ((find_whitest_space be W H image cfg kc).forbidden_mask)
      (whiteC W H image) W H cfg with ⟨q, hq, he⟩ |
    ⟨-, ⟨q, hq, he⟩ | ⟨q, hq, he⟩ | ⟨q, hq, he⟩ | ⟨q, hq, he⟩ | he⟩
  · exact Or.inl ⟨q, hq, he⟩
  · exact Or.inr (Or.inl ⟨q, hq, he⟩)
  · exact Or.inr (Or.inr (Or.inl ⟨q, hq, he⟩))
  · exact Or.inr (Or.inr (Or.inr (Or.inl ⟨q, hq, he⟩)))
  · exact Or.inr (Or.inr (Or.inr (Or.inr (Or.inl ⟨q, hq, he⟩))))
  · exact Or.inr (Or.inr (Or.inr (Or.inr (Or.inr he))))

/-- Claim C1, concrete run: on a `220 × 220` all-white page with the
production configuration the operation indeed returns a placement. -/
theorem C1_witness :
    ∃ p : Placement,
      (find_whitest_space trivialBackend 220 220 whiteRaster ⟨300, 200⟩ []).coords = p := by
  obtain ⟨p, hp, -⟩ := C1_total_cascade trivialBackend 220 220 whiteRaster ⟨300, 200⟩ []
    (by decide) (by decide) (by decide)
  exact ⟨p, hp⟩

/-- Claim C2: whenever both page dimensions are at least `smin_zone` and
`stamp_size_min ≤ stamp_size_max`, the returned placement fits in the
page (`x + size ≤ W`, `y + size ≤ H`; the fields are naturals, so
`0 ≤ x` and `0 ≤ y` hold by type) and its stamp side lies between
`stamp_size_min` and `stamp_size_max`. -/
theorem C2_bounds (be : ContourBackend) (W H : ℕ) (image : Img) (cfg : Cfg)
    (kc : KCache) (hW : minZone cfg ≤ W) (hH : minZone cfg ≤ H)
    (hc : cfg.stamp_size_min ≤ cfg.stamp_size_max) :
    (find_whitest_space be W H image cfg kc).coords.x
        + (find_whitest_space be W H image cfg kc).coords.size ≤ W
      ∧ (find_whitest_space be W H image cfg kc).coords.y
          + (find_whitest_space be W H image cfg kc).coords.size ≤ H
      ∧ cfg.stamp_size_min ≤ (find_whitest_space be W H image cfg kc).coords.stamp_size
      ∧ (find_whitest_space be W H image cfg kc).coords.stamp_size ≤ cfg.stamp_size_max := by
  rw [find_coords_def be W H image cfg kc]
  exact searchCore_validP _ _ W H cfg hW hH hc

/-- Claim C2, concrete run: the bounds hold on a `300 × 300` all-black
page with the production configuration. -/
theorem C2_witness :
    (find_whitest_space trivialBackend 300 300 blackRaster ⟨300, 200⟩ []).coords.x
        + (find_whitest_space trivialBackend 300 300 blackRaster ⟨300, 200⟩ []).coords.size ≤ 300
      ∧ (find_whitest_space trivialBackend 300 300 blackRaster ⟨300, 200⟩ []).coords.y
          + (find_whitest_space trivialBackend 300 300 blackRaster ⟨300, 200⟩ []).coords.size ≤ 300
      ∧ (⟨300, 200⟩ : Cfg).stamp_size_min
          ≤ (find_whitest_space trivialBackend 300 300 blackRaster ⟨300, 200⟩ []).coords.stamp_size
      ∧ (find_whitest_space trivialBackend 300 300 blackRaster ⟨300, 200⟩ []).coords.stamp_size
          ≤ (⟨300, 200⟩ : Cfg).stamp_size_max :=
  C2_bounds trivialBackend 300 300 blackRaster ⟨300, 200⟩ [] (by decide) (by decide) (by decide)

/-- Claim C3 (amended): `find_whitest_space` performs no dimension check
and never signals an error; on a page smaller than `smin_zone` in either
axis every stage fails and the operation still returns the forced corner
placement of tier T4 — which then does not fit inside the page. -/
theorem C3_undersized_forced (be : ContourBackend) (W H : ℕ) (image : Img) (cfg : Cfg)
    (kc : KCache) (hWH : W < minZone cfg ∨ H < minZone cfg) :
    (find_whitest_space be W H image cfg kc).coords = forcedPlacement W H cfg := by
  rw [find_coords_def]
  exact searchCore_unfit hWH

/-- Claim C3, concrete run of the amended statement: a `100 × 300` page is
narrower than `smin_zone = 210` and still yields the forced placement. -/
theorem C3_witness :
    (find_whitest_space trivialBackend 100 300 whiteRaster ⟨300, 200⟩ []).coords
      = forcedPlacement 100 300 ⟨300, 200⟩ :=
  C3_undersized_forced trivialBackend 100 300 whiteRaster ⟨300, 200⟩ []
    (Or.inl (by decide))

/-- Claim C3, counterexample to the specified behaviour: on the spec's own
`W = H = 209` example with `stamp_min = 200`, `min_margin = 5`, no
`InvalidRaster` is signalled — a placement is emitted, and it is the
forced corner zone of side 210, which overflows the 209-pixel page. -/
theorem C3_counterexample :
    (find_whitest_space trivialBackend 209 209 whiteRaster ⟨300, 200⟩ []).coords
        = ⟨0, 0, 210, 200⟩
      ∧ 209 < 0 + 210 := by
  refine ⟨?_, by norm_num⟩
  rw [find_coords_def, searchCore_unfit (Or.inl (by decide))]
  decide

/-- Claim C4 (amended): a primary-scan candidate is accepted as clean
exactly when the forbidden-mask sum over its square is zero and the mean
whiteness over the square divided by 255 is STRICTLY greater than the
adaptive threshold (19∕20 for large zone sides, 49∕50 otherwise); the
comparison is `>` in the code, not the `≥` stated by the spec. -/
theorem C4_clean_iff (fb wt : Img) (cfg : Cfg) (s y x : ℕ) :
    cleanPrim fb wt cfg s y x ↔
      (roiSum fb y x s = 0
        ∧ (if cfg.stamp_size_max + 2 * min_margin - 20 ≤ s then (19 : ℚ) / 20 else 49 / 50)
            < wr wt y x s) :=
  Iff.rfl

/-- Claim C4, counterexample to the specified `≥`: with
`stamp_max = 300`, `stamp_min = 90`, a clear forbidden mask and a
whiteness mask whose ratio over the `100 × 100` square at the origin is
exactly the threshold `49∕50 = 0.98`, the spec's `≥` accepts the
candidate but the code rejects it. -/
theorem C4_counterexample :
    roiSum blackRaster 0 0 100 = 0
      ∧ wr wtBand 0 0 100 = 49 / 50
      ∧ thetaOf ⟨300, 90⟩ 100 = 49 / 50
      ∧ thetaOf ⟨300, 90⟩ 100 ≤ wr wtBand 0 0 100
      ∧ ¬cleanPrim blackRaster wtBand ⟨300, 90⟩ 100 0 0 := by
  have hθ : thetaOf ⟨300, 90⟩ 100 = 49 / 50 := by
    simp only [thetaOf, min_margin]
    norm_num
  refine ⟨?_, wr_wtBand, hθ, ?_, ?_⟩
  · show roiSum (fun _ _ => 0) 0 0 100 = 0
    exact roiSum_constFn.trans (Nat.zero_mul _)
  · rw [hθ, wr_wtBand]
  · rintro ⟨-, hlt⟩
    rw [wr_wtBand, hθ] at hlt
    exact lt_irrefl _ hlt

/-- Claim C5: on a uniformly white raster whose page strictly exceeds the
first zone side `s₀ = max(stamp_size_max + 2·min_margin, 410)` in both
dimensions (and with a contour extractor finding nothing of interest on a
blank page), the very first primary-scan candidate `(0, 0, s₀)` is clean,
the scan terminates early, and the result is
`{x = 0, y = 0, size = s₀, stamp = stamp_size_max}`. -/
theorem C5_allwhite_max (be : ContourBackend) (W H : ℕ) (cfg : Cfg) (kc : KCache)
    (hkc : WFK kc) (hmax : 0 < cfg.stamp_size_max)
    (hc : cfg.stamp_size_min ≤ cfg.stamp_size_max)
    (hW : max (cfg.stamp_size_max + 2 * min_margin) 410 < W)
    (hH : max (cfg.stamp_size_max + 2 * min_margin) 410 < H)
    (hb1 : be.external W H zeroImg = [])
    (hb2 : ∀ c ∈ be.tree W H (pageConst W H 255), ¬(1000 < c.area ∧ c.area < 50000)) :
    (find_whitest_space be W H whiteRaster cfg kc).coords
        = ⟨0, 0, max (cfg.stamp_size_max + 2 * min_margin) 410, cfg.stamp_size_max⟩
      ∧ (primState (forbiddenC be W H whiteRaster) (whiteC W H whiteRaster) W H cfg).best
          = some ⟨0, 0, max (cfg.stamp_size_max + 2 * min_margin) 410,
              cfg.stamp_size_max⟩ := by
  have h3W : 3 ≤ W := by omega
  have h3H : 3 ≤ H := by omega
  have hsc := searchCore_allwhite_masks (forbiddenC_white h3W h3H hb1 hb2)
    whiteC_white hmax hc hW hH
  exact ⟨(find_masks_eq hkc).1.trans hsc.1, hsc.2⟩

/-- Claim C5, concrete run: the spec's all-white A4-like page
`W = 2100, H = 2970` with the production configuration yields exactly
`{x = 0, y = 0, size = 410, stamp = 300}`. -/
theorem C5_witness :
    (find_whitest_space trivialBackend 2100 2970 whiteRaster ⟨300, 200⟩ []).coords
      = ⟨0, 0, 410, 300⟩ := by
  have h := C5_allwhite_max trivialBackend 2100 2970 ⟨300, 200⟩ [] (by decide) (by decide)
    (by decide) (by decide) (by decide) rfl (fun c hc => by simp [trivialBackend] at hc)
  exact h.1.trans (by decide)

/-- Claim C6 (amended): on a uniformly black raster every stage fails and
tier T4 places the zone at `x = W − smin_zone − 20` (not `W − smin_zone`),
`y = 20`, with `size = smin_zone` and `stamp = stamp_size_min`. -/
theorem C6_allblack_forced (be : ContourBackend) (W H : ℕ) (cfg : Cfg) (kc : KCache)
    (hkc : WFK kc) (hW : minZone cfg + 20 ≤ W) (hH : minZone cfg + 20 ≤ H) :
    (find_whitest_space be W H blackRaster cfg kc).coords
      = ⟨W - minZone cfg - 20, 20, minZone cfg, cfg.stamp_size_min⟩ :=
  find_black be W H cfg kc hkc hW hH

/-- Claim C6, concrete run of the amended statement: on a `1000 × 1000`
all-black page with the production configuration the forced placement is
`{x = 770, y = 20, size = 210, stamp = 200}`. -/
theorem C6_witness :
    (find_whitest_space trivialBackend 1000 1000 blackRaster ⟨300, 200⟩ []).coords
      = ⟨770, 20, 210, 200⟩ :=
  (C6_allblack_forced trivialBackend 1000 1000 ⟨300, 200⟩ [] (by decide) (by decide)
    (by decide)).trans (by decide)

/-- Claim C6, counterexample to the specified coordinates: on the all-black
`2100 × 2970` page with `stamp_min = 200`, `min_margin = 5` the emitted
x-coordinate is `1870 = W − 230`, not the spec's `1890 = W − 210`. -/
theorem C6_counterexample :
    (find_whitest_space trivialBackend 2100 2970 blackRaster ⟨300, 200⟩ []).coords
        = ⟨1870, 20, 210, 200⟩
      ∧ (find_whitest_space trivialBackend 2100 2970 blackRaster ⟨300, 200⟩ []).coords
          ≠ ⟨1890, 20, 210, 200⟩ := by
  have h : (find_whitest_space trivialBackend 2100 2970 blackRaster ⟨300, 200⟩ []).coords
      = ⟨1870, 20, 210, 200⟩ :=
    (find_black trivialBackend 2100 2970 ⟨300, 200⟩ [] (by decide) (by decide)
      (by decide)).trans (by decide)
  refine ⟨h, ?_⟩
  rw [h]
  decide

/-- Claim C7: in the primary scan, if every candidate visited before some
candidate `(s, y, x)` (in the loop order recorded by `primCands`: sizes
largest first, then ascending `y`, then ascending `x`) fails the
maximal-stamp acceptance test and `(s, y, x)` passes it — it is clean and
its effective stamp `min(s − 2·min_margin, stamp_size_max)` equals
`stamp_size_max` — then the engine returns exactly that candidate with
stamp `stamp_size_max`: all remaining positions and sizes are skipped. -/
theorem C7_first_max_wins (fb wt : Img) (W H : ℕ) (cfg : Cfg) (l1 l2 : List (ℕ × ℕ × ℕ))
    (s y x : ℕ) (hmax : 0 < cfg.stamp_size_max)
    (hflat : primCands W H cfg = l1 ++ (s, y, x) :: l2)
    (hbefore : ∀ d ∈ l1, ¬acceptMax fb wt cfg d.1 d.2.1 d.2.2)
    (hacc : acceptMax fb wt cfg s y x) :
    searchCore fb wt W H cfg = ⟨x, y, s, cfg.stamp_size_max⟩ :=
  (searchCore_first_max l1 l2 (s, y, x) hmax hflat hbefore hacc).1

/-- Claim C7, concrete run: on a `416 × 416` page with
`stamp_min = stamp_max = 390` the first scan candidate `(410, 0, 0)` is
clean with maximal stamp, so the engine returns it and skips the other
five candidates. -/
theorem C7_witness :
    searchCore blackRaster whiteRaster 416 416 ⟨390, 390⟩ = ⟨0, 0, 410, 390⟩ := by
  refine C7_first_max_wins blackRaster whiteRaster 416 416 ⟨390, 390⟩ []
    [(405, 0, 0), (400, 0, 0), (400, 0, 13), (400, 13, 0), (400, 13, 13)] 410 0 0
    (by decide) (by decide) (by simp) ?_
  have h0 : roiSum whiteRaster 0 0 410 = 255 * (410 * 410) := by
    show roiSum (fun _ _ => 255) 0 0 410 = 255 * (410 * 410)
    exact roiSum_constFn
  refine ⟨⟨?_, ?_⟩, by decide, by decide⟩
  · show roiSum (fun _ _ => 0) 0 0 410 = 0
    exact roiSum_constFn.trans (Nat.zero_mul _)
  · rw [wr_of_roiSum h0 (by norm_num)]
    exact thetaOf_lt_one _ _

/-- Claim C8: the returned placement does not depend on the state of the
kernel cache: two invocations on the same raster and configuration with
any two well-formed caches return the same placement (and in this pure
embedding two invocations on bit-identical inputs are trivially equal, so
the operation is deterministic). -/
theorem C8_cache_independent (be : ContourBackend) (W H : ℕ) (image : Img) (cfg : Cfg)
    (kc₁ kc₂ : KCache) (h1 : WFK kc₁) (h2 : WFK kc₂) :
    (find_whitest_space be W H image cfg kc₁).coords
      = (find_whitest_space be W H image cfg kc₂).coords := by
  rw [(find_masks_eq h1).1, (find_masks_eq h2).1]

/-- Claim C8, concrete run: an empty cache and a pre-seeded cache give the
same placement on a `5 × 5` white page. -/
theorem C8_witness :
    (find_whitest_space trivialBackend 5 5 whiteRaster ⟨300, 200⟩ []).coords
      = (find_whitest_space trivialBackend 5 5 whiteRaster ⟨300, 200⟩
          [((3, 3), (3, 3))]).coords :=
  C8_cache_independent trivialBackend 5 5 whiteRaster ⟨300, 200⟩ [] [((3, 3), (3, 3))]
    (by decide) (by decide)

/-- Claim C9: a placement query leaves the raster unchanged — the raster
after the call is the input raster, pixel for pixel — and the query reads
nothing but the raster's on-page pixels: two rasters that agree on the
page produce the same placement, so the call has no further effect or
dependency (in this embedding of the process all I∕O is absent by
construction). -/
theorem C9_raster_pure (be : ContourBackend) (W H : ℕ) (image img' : Img) (cfg : Cfg)
    (kc : KCache) (hW : 3 ≤ W) (hH : 3 ≤ H) (heq : EqOn W H image img') :
    (find_whitest_space be W H image cfg kc).raster = image
      ∧ (find_whitest_space be W H image cfg kc).coords
          = (find_whitest_space be W H img' cfg kc).coords :=
  ⟨rfl, find_congr be image img' cfg kc hW hH heq⟩

/-- Claim C9, concrete run: on a `3 × 3` page the all-white raster and a
raster that is white on the page but garbage outside it give the same
placement, and the raster component is returned untouched. -/
theorem C9_witness :
    (find_whitest_space trivialBackend 3 3 whiteRaster ⟨300, 200⟩ []).raster = whiteRaster
      ∧ (find_whitest_space trivialBackend 3 3 whiteRaster ⟨300, 200⟩ []).coords
          = (find_whitest_space trivialBackend 3 3 offPage7 ⟨300, 200⟩ []).coords :=
  C9_raster_pure trivialBackend 3 3 whiteRaster offPage7 ⟨300, 200⟩ [] (by decide)
    (by decide) (fun y x hb => (if_pos hb).symm)

/-- Claim C10: the local-refinement stage never changes the result — for
every raster, configuration and cache, `find_whitest_space` returns
exactly what the same engine with the refinement loop removed returns,
because a refined candidate is adopted only when its effective stamp
strictly exceeds the primary candidate's, which is impossible at the
fixed zone size. -/
theorem C10_refine_noop (be : ContourBackend) (W H : ℕ) (image : Img) (cfg : Cfg)
    (kc : KCache) :
    (find_whitest_space be W H image cfg kc).coords
      = searchCoreNoRefine (find_whitest_space be W H image cfg kc).forbidden_mask
          (whiteC W H image) W H cfg := by
  rw [find_coords_def]
  exact searchCore_eq_noRefine _ _ W H cfg

end Stampwise

